import Mathlib

/-!
Verification of the semantic-analysis core of the `erg` compiler.

The development shallowly embeds, in Lean, the functions named by the
claims, translated from the Rust sources:

* `crates/erg_compiler/module/promise.rs`  — the per-module promise/join
  scheduler (`Promise`, `SharedPromises::insert/join/join_checked/
  join_children/join_all`);
* `crates/erg_compiler/context/inquire.rs` — name/attribute resolution
  (`rec_get_var_info`, `get_attr_info_from_attributive`), the builtin
  `match` call typing (`get_match_call_t`), argument substitution
  (`substitute_call`), candidate algebra (`sort_types`, `min_type`,
  `same_shape`, `get_attr_type`) and trait-implementer computation
  (`get_trait_impls`).

Operations of the surrounding crates that the claims do not decide
(the subtype test `supertype_of`, `Visibility::compatible`,
`AccessKind::matches`, type `union`/`intersection`, `sub_unify`) are
abstracted as explicit function parameters, so every theorem quantifies
over them exactly where the source treats them as opaque calls.

Thread-blocking (`JoinHandle::join`) is modelled by recording, inside the
handle value, the outcome the join would observe; the cooperative spin of
`SharedPromises::join` is modelled by returning `none` in the states in
which the loop would never exit in a single-threaded execution.
-/

namespace Erg

/-! ## Module scheduling layer: `module/promise.rs` -/

/-- A `std::thread::JoinHandle<()>` together with the information the
scheduler extracts from it: the id of the spawned thread
(`handle.thread().id()`) and the outcome (`Ok` = `true`) that
`handle.join()` would return once the worker terminates. -/
structure Handle where
  threadId : Nat
  joinOk : Bool
deriving DecidableEq, Repr

/-- `Promise` from `module/promise.rs`: per-module-path analysis state. -/
inductive Promise where
  | running (parent : Nat) (handle : Handle)
  | joining
  | finished
deriving DecidableEq, Repr

namespace Promise

/-- `Promise::running(handle)`: the parent field is the id of the thread
performing the registration (`current().id()`). -/
def runningOn (cur : Nat) (handle : Handle) : Promise :=
  .running cur handle

/-- `Promise::parent_thread_id`. -/
def parentThreadId : Promise → Option Nat
  | .running parent _ => some parent
  | .joining => none
  | .finished => none

/-- `Promise::take`: replace the stored state with `Joining`, returning
the previous state.  In the table-level functions below the replacement
is performed on the table and the previous state is passed on. -/
def take (p : Promise) : Promise × Promise :=
  (p, .joining)

end Promise

/-- Module paths (`PathBuf`), abstracted to a countable key type. -/
abbrev MPath := Nat

/-- The promise table `Shared<Dict<PathBuf, Promise>>`, as an association
list in insertion order (the `Dict` iterates in insertion order). -/
abbrev PromiseTable := List (MPath × Promise)

/-- First-occurrence lookup, as `Dict::get`. -/
def tblGet (tbl : PromiseTable) (p : MPath) : Option Promise :=
  (tbl.find? (fun e => e.1 == p)).map (·.2)

/-- Replace the value at an existing key (first occurrence), as
`*dict.get_mut(path).unwrap() = v`.  A missing key leaves the table
unchanged (the source would panic there; no caller reaches that case). -/
def tblSet (tbl : PromiseTable) (p : MPath) (v : Promise) : PromiseTable :=
  match tbl with
  | [] => []
  | (q, w) :: rest =>
      if q == p then (q, v) :: rest else (q, w) :: tblSet rest p v

/-- `SharedPromises` minus the table: the module graph (summarised by its
`ancestors` query) and the owner path `self.path`. -/
structure SharedPromises where
  ancestors : MPath → List MPath
  path : MPath

/-- `SharedPromises::insert`: registering a path that is already present
returns without touching the table; otherwise the path is bound to
`Promise::running(handle)` with the current thread as parent. -/
def SharedPromises.insert (cur : Nat) (tbl : PromiseTable)
    (path : MPath) (handle : Handle) : PromiseTable :=
  if (tblGet tbl path).isSome then tbl
  else tbl ++ [(path, Promise.runningOn cur handle)]

/-- `SharedPromises::join_checked`.  `cur` is `current().id()`; the
returned `Bool` is the `std::thread::Result` (`true` = `Ok`).  For a
non-`Running` promise the function returns `Ok` at once, leaving the
table as it was handed over (the caller has already traded the entry for
`Joining`). -/
def SharedPromises.joinChecked (sp : SharedPromises) (cur : Nat)
    (tbl : PromiseTable) (path : MPath) (promise : Promise) :
    PromiseTable × Bool :=
  match promise with
  | .running parent handle =>
      if sp.path ∈ sp.ancestors path ∨ handle.threadId == cur then
        (tblSet tbl path (.running parent handle), true)
      else
        (tblSet tbl path .finished, handle.joinOk)
  | _ => (tbl, true)

/-- `SharedPromises::join`.  The source spins while the entry is absent
or `Joining`; in a single-threaded execution that loop never exits, so
those states are mapped to `none`.  Otherwise the entry is taken
(swapped for `Joining`) and handed to `join_checked`. -/
def SharedPromises.join (sp : SharedPromises) (cur : Nat)
    (tbl : PromiseTable) (path : MPath) : Option (PromiseTable × Bool) :=
  match tblGet tbl path with
  | none => none
  | some .joining => none
  | some promise =>
      some (sp.joinChecked cur (tblSet tbl path .joining) path promise)

/-- First phase of `join_children`/`join_all`: `take` every selected
entry (swap it for `Joining`) while collecting the taken promises. -/
def takeWhere (sel : Promise → Bool) (tbl : PromiseTable) :
    PromiseTable × List (MPath × Promise) :=
  (tbl.map (fun e => if sel e.2 then (e.1, Promise.joining) else e),
   tbl.filter (fun e => sel e.2))

/-- `SharedPromises::join_children`: reap only promises whose parent is
the current thread (the result of each checked join is discarded). -/
def SharedPromises.joinChildren (sp : SharedPromises) (cur : Nat)
    (tbl : PromiseTable) : PromiseTable :=
  (takeWhere (fun pr => pr.parentThreadId == some cur) tbl).2.foldl
    (fun acc e => (sp.joinChecked cur acc e.1 e.2).1)
    (takeWhere (fun pr => pr.parentThreadId == some cur) tbl).1

/-- `SharedPromises::join_all`: reap every promise. -/
def SharedPromises.joinAll (sp : SharedPromises) (cur : Nat)
    (tbl : PromiseTable) : PromiseTable :=
  (takeWhere (fun _ => true) tbl).2.foldl
    (fun acc e => (sp.joinChecked cur acc e.1 e.2).1)
    (takeWhere (fun _ => true) tbl).1

/-- One observable operation of the scheduler, tagged with the id of the
thread performing it. -/
inductive SchedOp where
  | insert (cur : Nat) (path : MPath) (handle : Handle)
  | join (cur : Nat) (path : MPath)
  | joinChildren (cur : Nat)
  | joinAll (cur : Nat)
deriving Repr

/-- Effect of an operation on the table.  A `join` that would spin
forever leaves the table unchanged (no state is mutated before the spin
loop exits). -/
def SchedOp.apply (sp : SharedPromises) (tbl : PromiseTable) :
    SchedOp → PromiseTable
  | .insert cur path handle => SharedPromises.insert cur tbl path handle
  | .join cur path =>
      match sp.join cur tbl path with
      | none => tbl
      | some (t, _) => t
  | .joinChildren cur => sp.joinChildren cur tbl
  | .joinAll cur => sp.joinAll cur tbl

/-- Effect of a whole sequence of operations. -/
def SchedOp.applyAll (sp : SharedPromises) (tbl : PromiseTable)
    (ops : List SchedOp) : PromiseTable :=
  ops.foldl (fun t op => op.apply sp t) tbl

/-- The keys of a promise table, in order. -/
def tblKeys (tbl : PromiseTable) : List MPath := tbl.map Prod.fst

/-! ## Candidate ordering: `context/inquire.rs`, `sort_types` / `min_type`

`sort_types` is generic in the subtype machinery it consults
(`related`, `cmp_t`, `supertype_of` live in the comparison module, which
is not part of the analysed sources).  The embedding therefore takes the
non-strict supertype test `sup` as a parameter; `sup a b` means "`b` is
a subtype of `a`". -/

variable {α : Type}

/-- Modelled from the spec: `Context::related` (comparison module, not
in the analysed sources) — two types are related when they are
comparable by directed subtyping in either direction. -/
def related (sup : α → α → Bool) (a b : α) : Bool :=
  sup a b || sup b a

/-- Step 1 of `sort_types`: place `t` into the first buffer all of whose
members are related to it, or open a fresh buffer at the end. -/
def addToBuckets (sup : α → α → Bool) :
    List (List α) → α → List (List α)
  | [], t => [[t]]
  | buf :: rest, t =>
      if buf.all (fun bi => related sup bi t) then (buf ++ [t]) :: rest
      else buf :: addToBuckets sup rest t

/-- Insertion step of a stable ascending sort: `le a b` plays the role
of `cmp_t(a, b) != Greater`. -/
def orderedInsertLe (le : α → α → Bool) (a : α) : List α → List α
  | [] => [a]
  | b :: l => if le a b then a :: b :: l else b :: orderedInsertLe le a l

/-- Step 2 of `sort_types`: `buf.sort_by(|lhs, rhs| cmp_t(lhs, rhs))`,
a stable ascending sort — subtypes first — rendered as insertion sort. -/
def insertionSortLe (le : α → α → Bool) : List α → List α
  | [] => []
  | a :: l => orderedInsertLe le a (insertionSortLe le l)

/-- `Iterator::rposition`: index, counted from the front, of the last
element satisfying `p`. -/
def rposition (p : α → Bool) (l : List α) : Option Nat :=
  (l.foldl (fun st a => (st.1 + 1, if p a then some st.1 else st.2))
    ((0 : Nat), (none : Option Nat))).2

/-- `Vec::remove(idx)` (element dropped; out-of-range indices cannot be
reached by `sort_types`). -/
def removeAt : List α → Nat → List α
  | [], _ => []
  | _ :: t, 0 => t
  | h :: t, n + 1 => h :: removeAt t n

/-- `Vec::insert(pos, x)`: insert before the element currently at
`pos`. -/
def insertAt (x : α) : List α → Nat → List α
  | l, 0 => x :: l
  | [], _ + 1 => [x]
  | h :: t, n + 1 => h :: insertAt x t n

/-- One iteration of step 4 of `sort_types`: look at the element at
`idx`; within the window of the first `len - idx - 1` elements find the
last position holding a type the element is a supertype of; if there is
one, remove the element and re-insert it at that position.  `len` is the
length captured before the loop. -/
def slideStep (sup : α → α → Bool) (len : Nat) (l : List α)
    (idx : Nat) : List α :=
  match l.get? idx with
  | none => l
  | some x =>
      match rposition (fun t => sup x t) (l.take (len - idx - 1)) with
      | none => l
      | some pos => insertAt x (removeAt l idx) pos

/-- Step 4 of `sort_types`: the `while let Some(maybe_sup) =
concatenated.get(idx)` loop (the length never changes, so it runs for
`idx = 0, …, len-1`). -/
def slide (sup : α → α → Bool) (l : List α) : List α :=
  (List.range l.length).foldl (slideStep sup l.length) l

/-- `Context::sort_types`: bucket by relatedness, sort each bucket by
the subtype order, concatenate, then slide. -/
def sort_types (sup : α → α → Bool) (types : List α) : List α :=
  slide sup
    (((types.foldl (addToBuckets sup) []).map
      (insertionSortLe (fun a b => sup b a))).flatten)

/-- Loop of `Context::min_type` once a candidate minimum `m` exists:
keep `m` while it is a subtype of the next type, replace it when the
next type is a subtype of it, and return `None` as soon as two
incomparable types are met.  `subtype_of(a, b)` is rendered as
`sup b a`. -/
def min_type_loop (sup : α → α → Bool) (m : α) : List α → Option α
  | [] => some m
  | t :: rest =>
      if sup t m then min_type_loop sup m rest
      else if sup m t then min_type_loop sup t rest
      else none

/-- `Context::min_type`: smallest type of the sequence, `none` on an
empty sequence or when two incomparable types are met. -/
def min_type (sup : α → α → Bool) : List α → Option α
  | [] => none
  | t :: rest => min_type_loop sup t rest

/-- The concrete types of the `sort_types` doc-comment example, with the
subtype facts that example relies on (`Never` is a subtype of
everything, `Nat <: Int <: Obj`, `Str! <: Str <: Obj`,
`Module <: Obj`). -/
inductive ETy where
  | never | enat | eint | eobj | estr | estrMut | emodule
deriving DecidableEq, Repr

/-- Non-strict supertype test for `ETy`: `esup a b` holds when `b` is a
subtype of `a`. -/
def esup : ETy → ETy → Bool
  | _, .never => true
  | .eobj, _ => true
  | .enat, .enat => true
  | .eint, .eint => true
  | .eint, .enat => true
  | .estr, .estr => true
  | .estr, .estrMut => true
  | .estrMut, .estrMut => true
  | .emodule, .emodule => true
  | _, _ => false

/-! ## Global method-index fallback: `same_shape` / `get_attr_type` -/

/-- `Triple` from `erg_common::triple`: a lookup result that can
succeed, fail with an error, or find nothing. -/
inductive Triple (T : Type) (E : Type) where
  | ok (val : T)
  | err (e : E)
  | none
deriving DecidableEq, Repr

/-- The projections of the `Type` representation that `same_shape`
consults: the return type, the number of non-default parameters, the
presence of a variadic parameter, and the names of the default
parameters — the `Option`s are `none` exactly when the type is not a
subroutine type. -/
structure TyView (α : Type) where
  returnT : α → Option α
  nonDefaultLen : α → Option Nat
  hasVarParams : α → Bool
  defaultNames : α → Option (List (Option String))

/-- `Context::same_shape`: an empty candidate list is same-shaped; every
further candidate must agree with the first on return type, number of
non-default parameters, presence of a variadic parameter, and number
and names of default parameters (any non-subroutine candidate makes the
corresponding `zip` empty and the shape check fail). -/
def same_shape [DecidableEq α] (v : TyView α) : List α → Bool
  | [] => true
  | first :: rest =>
      rest.all (fun cand =>
        (match v.returnT cand, v.returnT first with
         | some a, some b => a == b
         | _, _ => false) &&
        (match v.nonDefaultLen cand, v.nonDefaultLen first with
         | some a, some b => a == b
         | _, _ => false) &&
        (v.hasVarParams cand == v.hasVarParams first) &&
        (match v.defaultNames cand, v.defaultNames first with
         | some a, some b => a == b
         | _, _ => false))

/-- `MethodPair`: a definition type paired with the method's info.  The
visibility compatibility of the method against the current access
(`method_info.vis.compatible(&attr.acc_kind(), self)`) depends only on
the pair once the attribute and the namespace are fixed, so it is
carried as a field. -/
structure MethodPair (α : Type) where
  definition_type : α
  method_type : α
  visCompatible : Bool
deriving DecidableEq, Repr

/-- The error raised by `get_attr_type`: an ambiguous-method error
listing every candidate's definition type. -/
inductive AttrTypeError (α : Type) where
  | ambiguousMethod (defs : List α)
deriving DecidableEq, Repr

/-- `Context::get_attr_type`: with no candidate, find nothing; if
exactly one candidate's definition type is a supertype of the object's
type and it is visibility-compatible, return it; otherwise, if all
candidates' method types share the same shape and they have a minimum
(w.r.t. the subtype order) whose first carrier is visibility-compatible,
return that carrier; in every remaining case raise the
ambiguous-method error over all candidates' definition types. -/
def get_attr_type [DecidableEq α] (sup : α → α → Bool) (v : TyView α)
    (objT : α) (candidates : List (MethodPair α)) :
    Triple (MethodPair α) (AttrTypeError α) :=
  if candidates.isEmpty then .none
  else
    let matched := candidates.filter (fun mp => sup mp.definition_type objT)
    let step1 : Option (MethodPair α) :=
      match matched with
      | [mp] => if mp.visCompatible then some mp else Option.none
      | _ => Option.none
    match step1 with
    | some mp => .ok mp
    | Option.none =>
        let fallback : Triple (MethodPair α) (AttrTypeError α) :=
          .err (.ambiguousMethod (candidates.map (·.definition_type)))
        if same_shape v (candidates.map (·.method_type)) then
          match min_type sup (candidates.map (·.method_type)) with
          | some m =>
              match candidates.find? (fun mp => mp.method_type == m) with
              | some minPair =>
                  if minPair.visCompatible then .ok minPair else fallback
              | Option.none => fallback
          | Option.none => fallback
        else fallback

/-- Base types of the concrete fragment used to exercise
`get_attr_type`: `Int <: Float`, and `Bool`. -/
inductive B3 where
  | bint | bfloat | bbool
deriving DecidableEq, Repr

/-- `b3sub a b`: `a` is a subtype of `b`. -/
def b3sub : B3 → B3 → Bool
  | .bint, .bint => true
  | .bint, .bfloat => true
  | .bfloat, .bfloat => true
  | .bbool, .bbool => true
  | _, _ => false

/-- A tiny concrete type representation: base types and one-parameter
function types. -/
inductive CTy where
  | base (b : B3)
  | fn (param ret : B3)
deriving DecidableEq, Repr

/-- Non-strict supertype test on `CTy` (`csup a b`: `b <: a`), with the
usual contravariant parameter / covariant return rule on functions. -/
def csup : CTy → CTy → Bool
  | .base a, .base b => b3sub b a
  | .fn p r, .fn q s => b3sub p q && b3sub s r
  | _, _ => false

/-- The `TyView` projections for `CTy`. -/
def cview : TyView CTy where
  returnT := fun t => match t with | .fn _ r => some (.base r) | _ => none
  nonDefaultLen := fun t => match t with | .fn _ _ => some 1 | _ => none
  hasVarParams := fun _ => false
  defaultNames := fun t => match t with | .fn _ _ => some [] | _ => none

/-! ## Trait-implementer algebra: `get_trait_impls` -/

/-- `TraitImpl`: the fact that `sub_type` implements the trait
instantiation `sup_trait`. -/
structure TraitImpl (α : Type) where
  sub_type : α
  sup_trait : α
deriving DecidableEq, Repr

/-- `Set::insert` of the insertion-ordered `erg_common::Set`:
deduplicate by full equality, keep first occurrences. -/
def setInsert [DecidableEq α] (s : List α) (a : α) : List α :=
  if a ∈ s then s else s ++ [a]

/-- `Set::union` (self's elements, then the other's new ones). -/
def setUnion [DecidableEq α] (s t : List α) : List α :=
  t.foldl setInsert s

/-- `Set::from_iter`. -/
def setOfList [DecidableEq α] (l : List α) : List α :=
  setUnion [] l

/-- A trait expression as analysed by `get_trait_impls`: intersections
and unions over simple trait references, the latter looked up by
qualified name. -/
inductive TraitExpr where
  | simple (name : String)
  | and (l r : TraitExpr)
  | or (l r : TraitExpr)
deriving DecidableEq, Repr

/-- The intersection-case accumulation step of `get_trait_impls`. -/
def andStep [DecidableEq α] (inter : α → α → α)
    (L R : List (TraitImpl α)) (isec : List (TraitImpl α)) (base : α) :
    List (TraitImpl α) :=
  match L.find? (fun ti => ti.sub_type == base),
      R.find? (fun ti => ti.sub_type == base) with
  | some lti, some rti =>
      setInsert isec ⟨lti.sub_type, inter lti.sup_trait rti.sup_trait⟩
  | _, _ => isec

/-- `Context::get_trait_impls`.  For an intersection, intersect the two
sides' implementer sets by implementing type and combine the two
implemented-trait instantiations with the type-intersection operation
`inter` (the unification module, outside the analysed sources); for a
union, return the set-union of the two sides (`FIXME` in the source: no
merging of overlapping implementers); otherwise consult the
session-wide `trait_impls` table by qualified name
(`get_simple_trait_impls` unions the shared table with every outer
context's view of that same shared table, which is the table itself). -/
def get_trait_impls [DecidableEq α] (inter : α → α → α)
    (table : String → List (TraitImpl α)) :
    TraitExpr → List (TraitImpl α)
  | .simple n => table n
  | .and l r =>
      let lImpls := get_trait_impls inter table l
      let lBase := setOfList (lImpls.map (·.sub_type))
      let rImpls := get_trait_impls inter table r
      let rBase := setOfList (rImpls.map (·.sub_type))
      let bases := lBase.filter (fun b => b ∈ rBase)
      bases.foldl (andStep inter lImpls rImpls) []
  | .or l r =>
      setUnion (get_trait_impls inter table l) (get_trait_impls inter table r)

/-- Concrete types for the trait-implementer scenario: the implementing
types `Int` and `Bool`, the trait instantiations `Add(Int)`,
`Add(Bool)`, `Sub(Int)`, and syntactic intersections of them. -/
inductive TTy where
  | tint | tbool | taddInt | taddBool | tsubInt
  | tand (l r : TTy)
deriving DecidableEq, Repr

/-- The implementer table of the scenario:
`{Int: Add(Int), Bool: Add(Bool)}` for `Add` and `{Int: Sub(Int)}` for
`Sub`. -/
def scenarioTable : String → List (TraitImpl TTy)
  | "Add" => [⟨.tint, .taddInt⟩, ⟨.tbool, .taddBool⟩]
  | "Sub" => [⟨.tint, .tsubInt⟩]
  | _ => []

/-! ## Builtin `match` / `match!`: `get_match_call_t` -/

/-- The operations of the type representation that `get_match_call_t`
uses: the `union` operation with its `Never` unit, the success of
`sub_unify` at this call site (a directed subtype check), and the
return type of a subroutine type (`none` for non-subroutines).  All
live outside the analysed sources and are taken as parameters. -/
structure MatchOps (τ : Type) where
  union : τ → τ → τ
  never : τ
  subOk : τ → τ → Bool
  returnT : τ → Option τ

/-- A lambda arm as `get_match_call_t` sees it: its non-default and
default parameter counts, the instantiated type of its first
non-default parameter (`instantiate_param_sig_t`), and the type of the
lambda expression itself. -/
structure MLambda (τ : Type) where
  nNonDefaults : Nat
  nDefaults : Nat
  paramTy : τ
  exprTy : τ
deriving DecidableEq, Repr

/-- An argument expression: a lambda, or any other expression carrying
its type. -/
inductive MArg (τ : Type) where
  | lam (l : MLambda τ)
  | other (t : τ)
deriving DecidableEq, Repr

/-- `expr.ref_t()`. -/
def MArg.refT : MArg τ → τ
  | .lam l => l.exprTy
  | .other t => t

/-- Whether the argument is a lambda expression. -/
def MArg.isLambda : MArg τ → Bool
  | .lam _ => true
  | .other _ => false

/-- The lambda behind the argument, if any. -/
def MArg.lam? : MArg τ → Option (MLambda τ)
  | .lam l => some l
  | .other _ => none

/-- The structured errors `get_match_call_t` can produce. -/
inductive MatchError (τ : Type) where
  | defaultParam
  | typeMismatch (t : τ)
  | paramCount (expected got : Nat)
  | matchFailed (target pattern : τ) (arms : List τ)
  | argsMissing
  | panicIndex
deriving DecidableEq, Repr

/-- The components of the subroutine type `get_match_call_t` returns:
`func(param_ts, None, vec![], return_t)` or the `proc` variant. -/
structure MatchCallT (τ : Type) where
  isFunc : Bool
  params : List τ
  returnT : τ
deriving DecidableEq, Repr

/-- The per-arm loop of `get_match_call_t`: reject an arm with default
parameters, then an arm whose parameter count is not 1; otherwise union
the arm's instantiated parameter type into the accumulated pattern type
and record it. -/
def collectArms (ops : MatchOps τ) :
    List (MLambda τ) → τ → Except (MatchError τ) (τ × List τ)
  | [], pat => .ok (pat, [])
  | l :: rest, pat =>
      if l.nDefaults ≠ 0 then .error .defaultParam
      else if l.nNonDefaults + l.nDefaults ≠ 1 then
        .error (.paramCount 1 (l.nNonDefaults + l.nDefaults))
      else
        match collectArms ops rest (ops.union pat l.paramTy) with
        | .error e => .error e
        | .ok (p, ts) => .ok (p, l.paramTy :: ts)

/-- `Context::get_match_call_t`.  In source order: keyword arguments
are rejected; every argument after the scrutinee must be a lambda
(else a type-mismatch error at the first offender); `pos_args[0]` is
indexed (a Rust panic on an empty argument list, modelled as
`panicIndex`); the arms are collected (progressively unioning the
pattern type from `Never`); the scrutinee's type must `sub_unify` into
the pattern type (else a match error naming the pattern type and all
arm types); the first arm's return type seeds the result's return type
(`args_missing` when absent), unioned with the remaining arms' return
types; the resulting subroutine takes the scrutinee type followed by
the arm expression types. -/
def get_match_call_t (ops : MatchOps τ) (isFunc : Bool)
    (posArgs : List (MArg τ)) (kwArgs : List τ) :
    Except (MatchError τ) (MatchCallT τ) :=
  match kwArgs with
  | _ :: _ => .error .defaultParam
  | [] =>
      match (posArgs.drop 1).find? (fun a => !a.isLambda) with
      | some a => .error (.typeMismatch a.refT)
      | none =>
          match posArgs with
          | [] => .error .panicIndex
          | scr :: armArgs =>
              match collectArms ops (armArgs.filterMap MArg.lam?)
                  ops.never with
              | .error e => .error e
              | .ok (unionPat, armTs) =>
                  if ops.subOk scr.refT unionPat = false then
                    .error (.matchFailed scr.refT unionPat armTs)
                  else
                    match armArgs.map MArg.refT with
                    | [] => .error .argsMissing
                    | b0 :: rest =>
                        match ops.returnT b0 with
                        | none => .error .argsMissing
                        | some r0 =>
                            .ok ⟨isFunc, scr.refT :: armArgs.map MArg.refT,
                              rest.foldl
                                (fun acc b =>
                                  ops.union acc ((ops.returnT b).getD
                                    ops.never)) r0⟩

/-- Concrete types used to instantiate the `match` typing: `Int`,
`Str`, unions, and one-parameter function types. -/
inductive MTy where
  | tnever | tintM | tstrM
  | tor (a b : MTy)
  | tfn (p r : MTy)
deriving DecidableEq, Repr

/-- A union operation with `Never` as unit. -/
def mtyUnion (a b : MTy) : MTy :=
  if a = .tnever then b else .tor a b

/-- A directed subtype check: reflexivity, `Never` minimal, and union
introduction on the right. -/
def mtySub : MTy → MTy → Bool
  | .tnever, _ => true
  | a, .tor l r => a == l || a == r || mtySub a l || mtySub a r
  | a, b => a == b

/-- `MatchOps` for `MTy`. -/
def mtyOps : MatchOps MTy where
  union := mtyUnion
  never := .tnever
  subOk := mtySub
  returnT := fun t => match t with | .tfn _ r => some r | _ => none

/-! ## Name resolution: `rec_get_var_info` / `validate_visibility` -/

/-- A binding (`VarInfo`) as the visibility claim sees it: an identity,
the verdict of `vi.vis.compatible(&ident.acc_kind(), namespace)` (the
check performed by `validate_visibility`; `ident` and `namespace` are
fixed along the whole search, so the verdict is a function of the
binding), and the verdict of `acc_kind.matches(vi)`.  Both predicates
live in `erg_common`, outside the analysed sources. -/
structure VInfo where
  id : Nat
  visCompatible : Bool
  kindMatches : Bool
deriving DecidableEq, Repr

/-- The errors `rec_get_var_info` can return for a name: a visibility
error carrying the rejected binding, access-before-definition, and
access-to-deleted-variable. -/
inductive NameError where
  | visibility (vi : VInfo)
  | accessBeforeDef
  | accessDeleted
deriving DecidableEq, Repr

/-- A scope node (`Context`) restricted to what `rec_get_var_info`
consults for one fixed identifier: the binding the identifier resolves
to among this node's `locals` / `decls` / `params` (if any), whether
the identifier sits in `future_defined_locals` or `deleted_locals`,
the method-table children (`methods_list`), and the enclosing scope
(`get_outer().or_else(|| get_builtins())`, with the builtins root as
the end of the chain). -/
inductive Ctx where
  | mk (curVar : Option VInfo) (futureDefined : Bool) (deleted : Bool)
      (methods : List Ctx) (outer : Option Ctx)

/-- The method-table children of a scope node. -/
def Ctx.methodsOf : Ctx → List Ctx
  | .mk _ _ _ methods _ => methods

/-- The enclosing scope of a scope node. -/
def Ctx.outerOf : Ctx → Option Ctx
  | .mk _ _ _ _ outer => outer

mutual

/-- `Context::get_current_scope_var`: the node's own tables first, then
each method-table child recursively. -/
def getCurrentScopeVar : Ctx → Option VInfo
  | .mk cur _ _ methods _ =>
      match cur with
      | some vi => some vi
      | none => getCurrentScopeVarList methods

/-- The `methods_list` loop of `get_current_scope_var`. -/
def getCurrentScopeVarList : List Ctx → Option VInfo
  | [] => none
  | c :: cs =>
      match getCurrentScopeVar c with
      | some vi => some vi
      | none => getCurrentScopeVarList cs

end

/-- First-hit composition of the search: an `Ok` or `Err` outcome
stops the search, `None` falls through. -/
def triComb (r fallback : Triple VInfo NameError) :
    Triple VInfo NameError :=
  match r with
  | .ok vi => .ok vi
  | .err e => .err e
  | .none => fallback

mutual

/-- `Context::rec_get_var_info` for a fixed identifier.  `isLocal` is
`acc_kind.is_local()`.  If the node's scope tables hold the binding:
return it when visibility-compatible and accepted by the access kind;
on a visibility violation return the visibility error unless the
access is local-unqualified, in which case the search continues;
otherwise (no current binding) report access-before-definition or
access-to-deleted-variable when flagged; the search then continues
(`rec_search_rest`) through the method-table children and — for local
access — the enclosing scope. -/
def rec_get_var_info (isLocal : Bool) (c : Ctx) : Triple VInfo NameError :=
  match c with
  | .mk cur fut del methods outer =>
      match getCurrentScopeVar (.mk cur fut del methods outer) with
      | some vi =>
          if vi.visCompatible then
            if vi.kindMatches then .ok vi
            else rec_search_rest isLocal methods outer
          else
            if isLocal then rec_search_rest isLocal methods outer
            else .err (.visibility vi)
      | none =>
          if fut then .err .accessBeforeDef
          else if del then .err .accessDeleted
          else rec_search_rest isLocal methods outer
termination_by sizeOf c
decreasing_by all_goals (simp; try omega)

/-- The fall-through part of `rec_get_var_info`: the method-table loop
followed — for local access only — by the enclosing scope. -/
def rec_search_rest (isLocal : Bool) (methods : List Ctx)
    (outer : Option Ctx) : Triple VInfo NameError :=
  triComb (recVarInfoList isLocal methods)
    (if isLocal then
      match outer with
      | some parent => rec_get_var_info isLocal parent
      | none => .none
    else .none)
termination_by 1 + sizeOf methods + sizeOf outer
decreasing_by all_goals (simp; try omega)

/-- The `methods_list` loop of `rec_get_var_info`: the first `Ok` or
`Err` of a child terminates the loop. -/
def recVarInfoList (isLocal : Bool) (ms : List Ctx) :
    Triple VInfo NameError :=
  match ms with
  | [] => .none
  | c :: cs =>
      match rec_get_var_info isLocal c with
      | .ok vi => .ok vi
      | .err e => .err e
      | .none => recVarInfoList isLocal cs
termination_by sizeOf ms
decreasing_by all_goals (simp; try omega)

end

/-! ## Argument substitution: `substitute_call`, `Type::Subr` branch -/

/-- A subroutine signature as `substitute_call` consumes it:
non-default parameters (possibly anonymous), an optional variadic
parameter, and default parameters, each a name, a declared type, and
the type of its default-value expression (the source's
`ParamTy::KwWithDefault { ty, default, .. }`; `pt.name().unwrap()` on a
default parameter presumes the name). -/
structure SubrSig (τ : Type) where
  nonDefaultParams : List (Option String × τ)
  varParams : Option (Option String × τ)
  defaultParams : List (String × τ × τ)
deriving DecidableEq, Repr

/-- The structured errors of argument substitution (locations and
hints dropped). -/
inductive CallError (τ : Type) where
  | tooManyArgs (paramsLen posLen kwLen : Nat)
  | unexpectedKw (name : String)
  | duplicateArg (name : String)
  | missingArgs (names : List String)
  | typeMismatch (name : Option String)
deriving DecidableEq, Repr

/-- The default parameters seen as plain parameters (the
`chain(non_default_params, default_params)` view). -/
def SubrSig.defaultsAsParams (subr : SubrSig τ) : List (Option String × τ) :=
  subr.defaultParams.map (fun d => (some d.1, d.2.1))

/-- `Context::substitute_pos_arg`: a named parameter already passed is
a duplicate (no unification happens); otherwise the name is recorded
and the argument is unified against the parameter type (`subOk` is the
success of `sub_unify`), a failure contributing a type-mismatch
error. -/
def substPosArg (subOk : τ → τ → Bool) (arg : τ)
    (param : Option String × τ) (passed : List String) :
    List String × List (CallError τ) :=
  match param.1 with
  | some n =>
      if n ∈ passed then (passed, [.duplicateArg n])
      else (n :: passed,
        if subOk arg param.2 then [] else [.typeMismatch (some n)])
  | none =>
      (passed, if subOk arg param.2 then [] else [.typeMismatch none])

/-- `Context::substitute_kw_arg`: an already-passed keyword is a
duplicate; otherwise the keyword must name a non-default or default
parameter (else an unexpected-keyword error), is recorded, and the
argument is unified against that parameter's type. -/
def substKwArg (subOk : τ → τ → Bool) (subr : SubrSig τ)
    (kw : String × τ) (passed : List String) :
    List String × List (CallError τ) :=
  if kw.1 ∈ passed then (passed, [.duplicateArg kw.1])
  else
    match (subr.nonDefaultParams ++ subr.defaultsAsParams).find?
        (fun pt => pt.1 == some kw.1) with
    | some pt =>
        (kw.1 :: passed,
          if subOk kw.2 pt.2 then [] else [.typeMismatch (some kw.1)])
    | none => (passed, [.unexpectedKw kw.1])

/-- The positional-argument loop: pair arguments against parameters in
order (stopping when either side runs out, as iterator `zip`/`next`
do), threading the passed-name set and collecting errors. -/
def posLoop (subOk : τ → τ → Bool) :
    List (Option String × τ) → List τ → List String →
    List String × List (CallError τ)
  | _, [], passed => (passed, [])
  | [], _ :: _, passed => (passed, [])
  | pt :: pts, a :: rest, passed =>
      let r1 := substPosArg subOk a pt passed
      let r2 := posLoop subOk pts rest r1.1
      (r2.1, r1.2 ++ r2.2)

/-- The keyword-argument loop. -/
def kwLoop (subOk : τ → τ → Bool) (subr : SubrSig τ) :
    List (String × τ) → List String →
    List String × List (CallError τ)
  | [], passed => (passed, [])
  | kw :: rest, passed =>
      let r1 := substKwArg subOk subr kw passed
      let r2 := kwLoop subOk subr rest r1.1
      (r2.1, r1.2 ++ r2.2)

/-- The second and later occurrences of each keyword name, in order
(`gen_too_many_args_error`'s `duplicated_args`). -/
def dupKwNames : List (String × τ) → List String → List String
  | [], _ => []
  | kw :: rest, seen =>
      if kw.1 ∈ seen then kw.1 :: dupKwNames rest seen
      else dupKwNames rest (kw.1 :: seen)

/-- `Context::gen_too_many_args_error`: report the unknown and
duplicated keyword arguments, or — when there are none — a bare
too-many-arguments error with the parameter and argument counts. -/
def genTooManyArgsError [DecidableEq τ] (subr : SubrSig τ) (posArgs : List τ)
    (kwArgs : List (String × τ)) : List (CallError τ) :=
  let names := subr.nonDefaultParams.map (·.1) ++
    (match subr.varParams with | some v => [v.1] | none => []) ++
    subr.defaultParams.map (fun d => some d.1)
  let unknown := kwArgs.filter (fun kw => ¬ some kw.1 ∈ names)
  let dups := dupKwNames kwArgs []
  if unknown = [] ∧ dups = [] then
    [.tooManyArgs
      (subr.nonDefaultParams.length + subr.defaultParams.length)
      posArgs.length kwArgs.length]
  else
    unknown.map (fun kw => .unexpectedKw kw.1) ++
      dups.map (fun n => .duplicateArg n)

/-- The `Type::Subr` branch of `Context::substitute_call`.  `isMethod`
stands for the receiver test `subr.self_t().map_or(false, |t| obj <: t)`
(the subtype machinery is outside the analysed sources).  Source order:
too-many-arguments check (when no variadic parameter); for a method,
unify the receiver against the first (self) parameter and drop it; when
the positional arguments cover all remaining non-default parameters,
pair them off, feed the overflow to the variadic parameter or the
default parameters, process keywords, and unify unfilled default
parameters against their own default values; otherwise pair the
positional arguments against the parameter chain, process keywords, and
fail with `MissingArgs` listing exactly the non-default parameter
names that no argument filled (discarding any unification errors
collected so far); finally report the collected errors, if any. -/
def substitute_call_subr [DecidableEq τ] (subOk : τ → τ → Bool) (isMethod : Bool)
    (objT : τ) (subr : SubrSig τ) (posArgs : List τ)
    (kwArgs : List (String × τ)) : Except (List (CallError τ)) Unit :=
  let paramsLen := subr.nonDefaultParams.length + subr.defaultParams.length
  if (paramsLen < posArgs.length ∨
        paramsLen < posArgs.length + kwArgs.length) ∧
      subr.varParams.isNone then
    .error (genTooManyArgsError subr posArgs kwArgs)
  else
    let selfErrs : List (CallError τ) :=
      if isMethod then
        match subr.nonDefaultParams.head? with
        | some selfPt =>
            if subOk objT selfPt.2 then [] else [.typeMismatch selfPt.1]
        | none => []
      else []
    let nonDefaults :=
      if isMethod then subr.nonDefaultParams.tail else subr.nonDefaultParams
    if posArgs.length ≥ nonDefaults.length then
      let r1 := posLoop subOk nonDefaults (posArgs.take nonDefaults.length) []
      let varArgs := posArgs.drop nonDefaults.length
      let r2 :=
        match subr.varParams with
        | some varPt =>
            (r1.1,
              varArgs.filterMap (fun a =>
                if subOk a varPt.2 then none
                else some (CallError.typeMismatch varPt.1)))
        | none => posLoop subOk subr.defaultsAsParams varArgs r1.1
      let r3 := kwLoop subOk subr kwArgs r2.1
      let defErrs : List (CallError τ) :=
        (subr.defaultParams.filter (fun d => ¬ d.1 ∈ r3.1)).filterMap
          (fun d => if subOk d.2.2 d.2.1 then none
            else some (.typeMismatch (some d.1)))
      let errs := selfErrs ++ r1.2 ++ r2.2 ++ r3.2 ++ defErrs
      if errs = [] then .ok () else .error errs
    else
      let r1 := posLoop subOk (nonDefaults ++ subr.defaultsAsParams)
        posArgs []
      let r2 := kwLoop subOk subr kwArgs r1.1
      let missing := (subr.nonDefaultParams.map
        (fun pt => pt.1.getD "_")).filter (fun n => ¬ n ∈ r2.1)
      if missing ≠ [] then .error [.missingArgs missing]
      else
        let errs := selfErrs ++ r1.2 ++ r2.2
        if errs = [] then .ok () else .error errs

/-! ## Attributive lookup: `get_attr_info_from_attributive` -/

/-- The fragment of the `Type` representation that
`get_attr_info_from_attributive` inspects: `Never`, linked and unbound
free variables (an unbound one carries the upper bound that
`fv.get_super().unwrap()` yields), references, refinements, records
(field name, declared public visibility, field type), structural types,
and everything else. -/
inductive ATy where
  | never
  | fvLinked (t : ATy)
  | fvUnbound (sup : ATy)
  | ref (t : ATy)
  | refMut (before : ATy)
  | refinement (base : ATy)
  | record (fields : List (String × Bool × ATy))
  | structural (t : ATy)
  | otherTy

/-- The `VarInfo` outcomes of attributive lookup: the distinguished
`VarInfo::ILLEGAL`, or a binding built from a record field (its type
and its declared visibility). -/
inductive AVarInfo where
  | illegal
  | fieldInfo (t : ATy) (visPublic : Bool)

/-- `Context::get_attr_info_from_attributive`.  `visOk` stands for
`validate_visibility`'s check
`vi.vis.compatible(&ident.acc_kind(), self)`, a function of the field's
declared visibility once the identifier and namespace are fixed.  The
`Unit` error is the visibility error of the record branch. -/
def get_attr_info_from_attributive (visOk : Bool → Bool)
    (ident : String) : ATy → Triple AVarInfo Unit
  | .never => .ok .illegal
  | .fvLinked t => get_attr_info_from_attributive visOk ident t
  | .fvUnbound sup => get_attr_info_from_attributive visOk ident sup
  | .ref t => get_attr_info_from_attributive visOk ident t
  | .refMut before => get_attr_info_from_attributive visOk ident before
  | .refinement base => get_attr_info_from_attributive visOk ident base
  | .record fields =>
      match fields.find? (fun f => f.1 == ident) with
      | some (_, vis, attrT) =>
          if visOk vis then .ok (.fieldInfo attrT vis) else .err ()
      | none => .none
  | .structural t => get_attr_info_from_attributive visOk ident t
  | .otherTy => .none

lemma tblGet_cons (q : MPath) (w : Promise) (t : PromiseTable) (p : MPath) :
    tblGet ((q, w) :: t) p = if q = p then some w else tblGet t p := by
  by_cases h : q = p
  · simp [tblGet, List.find?_cons_of_pos, h]
  · have : ((q, w).1 == p) = false := by simpa using h
    simp [tblGet, List.find?_cons_of_neg, this, h]

lemma tblSet_cons (q : MPath) (w : Promise) (t : PromiseTable) (p : MPath)
    (v : Promise) :
    tblSet ((q, w) :: t) p v =
      if q = p then (q, v) :: t else (q, w) :: tblSet t p v := by
  by_cases h : q = p <;> simp [tblSet, h]

lemma tblGet_tblSet_ne (tbl : PromiseTable) {q p : MPath} (v : Promise)
    (h : q ≠ p) : tblGet (tblSet tbl q v) p = tblGet tbl p := by
  induction tbl with
  | nil => rfl
  | cons e t ih =>
      obtain ⟨r, w⟩ := e
      by_cases hr : r = q
      · subst hr
        simp [tblSet_cons, tblGet_cons, h]
      · simp [tblSet_cons, tblGet_cons, hr, ih]

lemma tblGet_tblSet_self (tbl : PromiseTable) {q : MPath} (v : Promise)
    (h : (tblGet tbl q).isSome) : tblGet (tblSet tbl q v) q = some v := by
  induction tbl with
  | nil => simp [tblGet] at h
  | cons e t ih =>
      obtain ⟨r, w⟩ := e
      by_cases hr : r = q
      · subst hr
        simp [tblSet_cons, tblGet_cons]
      · rw [tblGet_cons] at h
        simp only [hr, if_false] at h
        simp [tblSet_cons, tblGet_cons, hr, ih h]

lemma tblSet_tblSet (tbl : PromiseTable) (q : MPath) (a b : Promise) :
    tblSet (tblSet tbl q a) q b = tblSet tbl q b := by
  induction tbl with
  | nil => rfl
  | cons e t ih =>
      obtain ⟨r, w⟩ := e
      by_cases hr : r = q
      · subst hr
        simp [tblSet_cons]
      · simp [tblSet_cons, hr, ih]

lemma tblKeys_tblSet (tbl : PromiseTable) (q : MPath) (v : Promise) :
    tblKeys (tblSet tbl q v) = tblKeys tbl := by
  induction tbl with
  | nil => rfl
  | cons e t ih =>
      obtain ⟨r, w⟩ := e
      by_cases hr : r = q
      · simp [tblSet_cons, tblKeys, hr]
      · simp only [tblSet_cons, hr, if_false, tblKeys, List.map_cons]
        simpa [tblKeys] using ih

lemma tblGet_of_mem {tbl : PromiseTable} {q : MPath} {w : Promise}
    (hnd : (tblKeys tbl).Nodup) (hm : (q, w) ∈ tbl) :
    tblGet tbl q = some w := by
  induction tbl with
  | nil => simp at hm
  | cons e t ih =>
      obtain ⟨r, u⟩ := e
      rw [tblKeys, List.map_cons, List.nodup_cons] at hnd
      rcases List.mem_cons.1 hm with h | h
      · obtain ⟨hq, hw⟩ := Prod.mk.injEq .. ▸ h
        cases h
        simp [tblGet_cons]
      · have hr : r ≠ q := by
          intro hrq
          exact hnd.1 (hrq ▸ (List.mem_map.2 ⟨(q, w), h, hrq ▸ rfl⟩))
        rw [tblGet_cons, if_neg hr]
        exact ih hnd.2 h

lemma tblGet_append_left {tbl : PromiseTable} {p : MPath} {w : Promise}
    (h : tblGet tbl p = some w) (l : PromiseTable) :
    tblGet (tbl ++ l) p = some w := by
  induction tbl with
  | nil => simp [tblGet] at h
  | cons e t ih =>
      obtain ⟨r, u⟩ := e
      rw [tblGet_cons] at h
      by_cases hr : r = p
      · simpa [tblGet_cons, hr] using h
      · rw [if_neg hr] at h
        simpa [tblGet_cons, hr] using ih h

lemma tblGet_takeWhere (sel : Promise → Bool) (tbl : PromiseTable)
    (p : MPath) :
    tblGet (takeWhere sel tbl).1 p =
      (tblGet tbl p).map (fun v => if sel v then Promise.joining else v) := by
  induction tbl with
  | nil => rfl
  | cons e t ih =>
      obtain ⟨r, w⟩ := e
      by_cases hr : r = p <;>
        by_cases hs : sel w <;>
          simp [takeWhere, tblGet_cons, hr, hs] <;>
            simpa [takeWhere] using ih

lemma tblKeys_takeWhere (sel : Promise → Bool) (tbl : PromiseTable) :
    tblKeys (takeWhere sel tbl).1 = tblKeys tbl := by
  induction tbl with
  | nil => rfl
  | cons e t ih =>
      obtain ⟨r, w⟩ := e
      by_cases hs : sel w <;> simp [takeWhere, tblKeys, hs] <;>
        simpa [takeWhere, tblKeys] using ih

/-- The second phase of `join_children`/`join_all` only ever rewrites
table entries through `tblSet`, so the key list is unchanged. -/
lemma tblKeys_foldl_joinChecked (sp : SharedPromises) (cur : Nat)
    (l : List (MPath × Promise)) (acc : PromiseTable) :
    tblKeys (l.foldl (fun acc e => (sp.joinChecked cur acc e.1 e.2).1) acc) =
      tblKeys acc := by
  induction l generalizing acc with
  | nil => rfl
  | cons e t ih =>
      obtain ⟨q, pr⟩ := e
      rw [List.foldl_cons, ih]
      cases pr with
      | running parent handle =>
          simp only [SharedPromises.joinChecked]
          split <;> simp [tblKeys_tblSet]
      | joining => rfl
      | finished => rfl

/-- When every taken entry keyed `p` holds a non-`Running` promise, the
second phase of `join_children`/`join_all` leaves the entry at `p`
inside `{Finished, Joining}` if it started there. -/
lemma tblGet_foldl_joinChecked (sp : SharedPromises) (cur : Nat) (p : MPath)
    (l : List (MPath × Promise)) (acc : PromiseTable)
    (hl : ∀ e ∈ l, e.1 = p → ∀ parent handle,
        e.2 ≠ Promise.running parent handle)
    (hacc : tblGet acc p = some Promise.finished ∨
        tblGet acc p = some Promise.joining) :
    tblGet (l.foldl (fun acc e => (sp.joinChecked cur acc e.1 e.2).1) acc) p =
        some Promise.finished ∨
      tblGet (l.foldl (fun acc e => (sp.joinChecked cur acc e.1 e.2).1) acc) p =
        some Promise.joining := by
  induction l generalizing acc with
  | nil => exact hacc
  | cons e t ih =>
      obtain ⟨q, pr⟩ := e
      rw [List.foldl_cons]
      refine ih _ (fun e he hp => hl e (List.mem_cons_of_mem _ he) hp) ?_
      cases pr with
      | running parent handle =>
          have hq : q ≠ p := fun hq =>
            hl (q, .running parent handle) (List.mem_cons_self _ _) hq parent
              handle rfl
          simp only [SharedPromises.joinChecked]
          split <;> simpa [tblGet_tblSet_ne _ _ hq] using hacc
      | joining => exact hacc
      | finished => exact hacc

lemma tblGet_eq_none_iff (tbl : PromiseTable) (p : MPath) :
    tblGet tbl p = none ↔ ∀ e ∈ tbl, e.1 ≠ p := by
  simp [tblGet, List.find?_eq_none]

/-- One scheduler operation never moves an entry out of
`{Finished, Joining}`. -/
lemma schedStep_stays (sp : SharedPromises) (op : SchedOp)
    (tbl : PromiseTable) (p : MPath) (hnd : (tblKeys tbl).Nodup)
    (h : tblGet tbl p = some Promise.finished ∨
        tblGet tbl p = some Promise.joining) :
    tblGet (op.apply sp tbl) p = some Promise.finished ∨
      tblGet (op.apply sp tbl) p = some Promise.joining := by
  have hstuck : ∀ e ∈ tbl, e.1 = p → ∀ parent handle,
      e.2 ≠ Promise.running parent handle := by
    rintro ⟨q, w⟩ hm rfl parent handle rfl
    rcases h with h | h <;> rw [tblGet_of_mem hnd hm] at h <;> exact
      Promise.noConfusion (Option.some.inj h)
  cases op with
  | insert cur path handle =>
      simp only [SchedOp.apply, SharedPromises.insert]
      split
      · exact h
      · rcases h with h | h
        · exact Or.inl (tblGet_append_left h _)
        · exact Or.inr (tblGet_append_left h _)
  | join cur path =>
      simp only [SchedOp.apply, SharedPromises.join]
      by_cases hp : path = p
      · subst hp
        rcases h with h | h
        · rw [h]
          have hj : tblGet (tblSet tbl path Promise.joining) path =
              some Promise.joining :=
            tblGet_tblSet_self _ _ (by simp [h])
          simp [SharedPromises.joinChecked, hj]
        · rw [h]
          exact Or.inr h
      · rcases hg : tblGet tbl path with _ | pr
        · exact h
        · have hne : path ≠ p := hp
          cases pr with
          | running parent handle =>
              simp only [SharedPromises.joinChecked]
              split <;>
                · rcases h with h | h <;>
                    [exact Or.inl (by rwa [tblGet_tblSet_ne _ _ hne,
                        tblGet_tblSet_ne _ _ hne]);
                     exact Or.inr (by rwa [tblGet_tblSet_ne _ _ hne,
                        tblGet_tblSet_ne _ _ hne])]
          | joining => exact h
          | finished =>
              simp only [SharedPromises.joinChecked]
              rcases h with h | h <;>
                [exact Or.inl (by rwa [tblGet_tblSet_ne _ _ hne]);
                 exact Or.inr (by rwa [tblGet_tblSet_ne _ _ hne])]
  | joinChildren cur =>
      simp only [SchedOp.apply, SharedPromises.joinChildren]
      refine tblGet_foldl_joinChecked _ _ _ _ _ ?_ ?_
      · rintro e he rfl parent handle
        exact hstuck e (List.mem_of_mem_filter he) rfl parent handle
      · rw [tblGet_takeWhere]
        rcases h with h | h <;> rw [h] <;>
          simp [Promise.parentThreadId]
  | joinAll cur =>
      simp only [SchedOp.apply, SharedPromises.joinAll]
      refine tblGet_foldl_joinChecked _ _ _ _ _ ?_ ?_
      · rintro e he rfl parent handle
        exact hstuck e (List.mem_of_mem_filter he) rfl parent handle
      · rw [tblGet_takeWhere]
        rcases h with h | h <;> rw [h] <;> simp

/-- One scheduler operation keeps the key list duplicate-free. -/
lemma schedStep_nodup (sp : SharedPromises) (op : SchedOp)
    (tbl : PromiseTable) (hnd : (tblKeys tbl).Nodup) :
    (tblKeys (op.apply sp tbl)).Nodup := by
  cases op with
  | insert cur path handle =>
      simp only [SchedOp.apply, SharedPromises.insert]
      split
      · exact hnd
      · rename_i habs
        have hno : ∀ e ∈ tbl, e.1 ≠ path := by
          rw [← tblGet_eq_none_iff]
          simpa using habs
        have : path ∉ tblKeys tbl := by
          simp only [tblKeys, List.mem_map]
          rintro ⟨e, he, rfl⟩
          exact hno e he rfl
        simp only [tblKeys, List.map_append, List.map_cons, List.map_nil,
          List.nodup_append, List.nodup_singleton, true_and, and_true,
          List.disjoint_singleton]
        exact ⟨hnd, this⟩
  | join cur path =>
      simp only [SchedOp.apply, SharedPromises.join]
      rcases hg : tblGet tbl path with _ | pr
      · exact hnd
      · cases pr with
        | running parent handle =>
            simp only [SharedPromises.joinChecked]
            split <;> simpa [tblKeys_tblSet] using hnd
        | joining => exact hnd
        | finished =>
            simp only [SharedPromises.joinChecked]
            simpa [tblKeys_tblSet] using hnd
  | joinChildren cur =>
      simp only [SchedOp.apply, SharedPromises.joinChildren]
      rw [tblKeys_foldl_joinChecked, tblKeys_takeWhere]
      exact hnd
  | joinAll cur =>
      simp only [SchedOp.apply, SharedPromises.joinAll]
      rw [tblKeys_foldl_joinChecked, tblKeys_takeWhere]
      exact hnd

lemma schedSeq_stays (sp : SharedPromises) (ops : List SchedOp)
    (tbl : PromiseTable) (p : MPath) (hnd : (tblKeys tbl).Nodup)
    (h : tblGet tbl p = some Promise.finished ∨
        tblGet tbl p = some Promise.joining) :
    tblGet (SchedOp.applyAll sp tbl ops) p = some Promise.finished ∨
      tblGet (SchedOp.applyAll sp tbl ops) p = some Promise.joining := by
  induction ops generalizing tbl with
  | nil => exact h
  | cons op rest ih =>
      exact ih (op.apply sp tbl) (schedStep_nodup sp op tbl hnd)
        (schedStep_stays sp op tbl p hnd h)

/-- C1 counterexample: the claim "a promise that has reached Finished
never leaves Finished" is false.  On thread 0, register path 5 for a
worker on thread 1 and join it (no cycle): the entry becomes `Finished`.
A further `join` of the same path takes the entry (swapping in
`Joining`) and, because the taken promise is not `Running`,
`join_checked` returns at once without restoring it — the entry moves
from `Finished` back to `Joining`. -/
theorem promise_finished_leaves_finished_cex :
    tblGet (SchedOp.applyAll ⟨fun _ => [], 0⟩ []
      [.insert 0 5 ⟨1, true⟩, .join 0 5]) 5 = some Promise.finished ∧
    tblGet (SchedOp.applyAll ⟨fun _ => [], 0⟩ []
      [.insert 0 5 ⟨1, true⟩, .join 0 5, .join 0 5]) 5 =
        some Promise.joining ∧
    Promise.joining ≠ Promise.finished := by
  decide

/-- C1 (amended): under any sequence of insert/join/join_children/
join_all operations, a promise that has reached `Finished` never returns
to `Running` (nor is it ever dropped): it either stays `Finished` or is
parked at `Joining` by a later take that is never restored. -/
theorem promise_finished_never_back_to_running (sp : SharedPromises)
    (tbl : PromiseTable) (p : MPath) (ops : List SchedOp)
    (hnd : (tblKeys tbl).Nodup)
    (hfin : tblGet tbl p = some Promise.finished) :
    tblGet (SchedOp.applyAll sp tbl ops) p = some Promise.finished ∨
      tblGet (SchedOp.applyAll sp tbl ops) p = some Promise.joining :=
  schedSeq_stays sp ops tbl p hnd (Or.inl hfin)

/-- C1 witness: the amended theorem applied to a concrete table and a
concrete `join_all`. -/
theorem promise_finished_never_back_to_running_witness :
    (tblKeys [(5, Promise.finished)]).Nodup ∧
    tblGet ([(5, Promise.finished)] : PromiseTable) 5 =
      some Promise.finished ∧
    (tblGet (SchedOp.applyAll ⟨fun _ => [], 0⟩ [(5, Promise.finished)]
        [.joinAll 0]) 5 = some Promise.finished ∨
      tblGet (SchedOp.applyAll ⟨fun _ => [], 0⟩ [(5, Promise.finished)]
        [.joinAll 0]) 5 = some Promise.joining) :=
  ⟨by decide, by decide,
    promise_finished_never_back_to_running ⟨fun _ => [], 0⟩
      [(5, Promise.finished)] 5 [.joinAll 0] (by decide) (by decide)⟩

/-- C2: when `join(path)` takes a `Running` promise, then (cycle case)
if the joiner's own path is in the module graph's ancestor set of `path`
or the promise's thread is the calling thread, the entry is restored to
the very same `Running` state and `Ok` is returned without consulting
the handle's join outcome; otherwise the entry is set to `Finished` and
the handle's join outcome — including a worker failure — is returned
as the result of `join`, with no retry. -/
theorem join_running_behaviour (sp : SharedPromises) (cur : Nat)
    (tbl : PromiseTable) (path : MPath) (parent : Nat) (handle : Handle)
    (hget : tblGet tbl path = some (Promise.running parent handle)) :
    ((sp.path ∈ sp.ancestors path ∨ handle.threadId = cur) →
      sp.join cur tbl path =
          some (tblSet tbl path (Promise.running parent handle), true) ∧
        tblGet (tblSet tbl path (Promise.running parent handle)) path =
          some (Promise.running parent handle)) ∧
    (sp.path ∉ sp.ancestors path → handle.threadId ≠ cur →
      sp.join cur tbl path =
          some (tblSet tbl path Promise.finished, handle.joinOk) ∧
        tblGet (tblSet tbl path Promise.finished) path =
          some Promise.finished) := by
  have hsome : (tblGet tbl path).isSome := by simp [hget]
  constructor
  · intro hcyc
    have hc : sp.path ∈ sp.ancestors path ∨ (handle.threadId == cur) = true := by
      rcases hcyc with h | h
      · exact Or.inl h
      · exact Or.inr (by simpa using h)
    refine ⟨?_, tblGet_tblSet_self _ _ hsome⟩
    simp only [SharedPromises.join, hget, SharedPromises.joinChecked,
      if_pos hc, tblSet_tblSet]
  · intro h1 h2
    have hc : ¬(sp.path ∈ sp.ancestors path ∨ (handle.threadId == cur) = true) := by
      rintro (h | h)
      · exact h1 h
      · exact h2 (by simpa using h)
    refine ⟨?_, tblGet_tblSet_self _ _ hsome⟩
    simp only [SharedPromises.join, hget, SharedPromises.joinChecked,
      if_neg hc, tblSet_tblSet]

/-- C2 witness: joining path 3 (worker on thread 2 that failed) from
thread 0 with an empty ancestor set blocks, marks the entry `Finished`
and propagates the worker failure (`false`). -/
theorem join_running_behaviour_witness :
    tblGet ([(3, Promise.running 7 ⟨2, false⟩)] : PromiseTable) 3 =
      some (Promise.running 7 ⟨2, false⟩) ∧
    SharedPromises.join ⟨fun _ => [], 9⟩ 0
        [(3, Promise.running 7 ⟨2, false⟩)] 3 =
      some (tblSet [(3, Promise.running 7 ⟨2, false⟩)] 3 Promise.finished,
        false) :=
  ⟨by decide,
    ((join_running_behaviour ⟨fun _ => [], 9⟩ 0
        [(3, Promise.running 7 ⟨2, false⟩)] 3 7 ⟨2, false⟩ (by decide)).2
      (by decide) (by decide)).1⟩

/-- C9: `SharedPromises::insert` on a path that already has a registered
promise leaves the table completely unchanged — the existing promise is
kept, the new handle is discarded, so the first registration wins. -/
theorem insert_first_registration_wins (cur : Nat) (tbl : PromiseTable)
    (path : MPath) (handle : Handle) (pr : Promise)
    (h : tblGet tbl path = some pr) :
    SharedPromises.insert cur tbl path handle = tbl := by
  simp [SharedPromises.insert, h]

/-- C9 witness: re-registering path 4 with a new handle is a no-op. -/
theorem insert_first_registration_wins_witness :
    tblGet ([(4, Promise.running 0 ⟨1, true⟩)] : PromiseTable) 4 =
      some (Promise.running 0 ⟨1, true⟩) ∧
    SharedPromises.insert 6 [(4, Promise.running 0 ⟨1, true⟩)] 4 ⟨8, false⟩ =
      [(4, Promise.running 0 ⟨1, true⟩)] :=
  ⟨by decide,
    insert_first_registration_wins 6 [(4, Promise.running 0 ⟨1, true⟩)] 4
      ⟨8, false⟩ (Promise.running 0 ⟨1, true⟩) (by decide)⟩

/-- C8: `sort_types` is not idempotent.  On the input of the function's
own doc-comment example, `[Int, Str, Nat, Never, Obj, Str!, Module]`,
the final "slide" pass — whose search window is the first
`len - idx - 1` elements — moves `Str!`, `Str` and `Int` towards the
front (every type is a supertype of `Never`, which sits early), so the
code produces `[Str, Str!, Never, Nat, Obj, Int, Module]` instead of
the documented `[Never, Nat, Int, Str!, Str, Module, Obj]`, and sorting
that output again produces yet another order. -/
theorem sort_types_not_idempotent :
    sort_types esup
        [ETy.eint, .estr, .enat, .never, .eobj, .estrMut, .emodule] =
      [ETy.estr, .estrMut, .never, .enat, .eobj, .eint, .emodule] ∧
    sort_types esup (sort_types esup
        [ETy.eint, .estr, .enat, .never, .eobj, .estrMut, .emodule]) ≠
      sort_types esup
        [ETy.eint, .estr, .enat, .never, .eobj, .estrMut, .emodule] ∧
    sort_types esup
        [ETy.eint, .estr, .enat, .never, .eobj, .estrMut, .emodule] ≠
      [ETy.never, .enat, .eint, .estrMut, .estr, .emodule, .eobj] := by
  decide

lemma mem_setInsert [DecidableEq α] {s : List α} {a x : α} :
    x ∈ setInsert s a ↔ x ∈ s ∨ x = a := by
  unfold setInsert
  split
  · rename_i h
    constructor
    · exact Or.inl
    · rintro (hx | rfl)
      · exact hx
      · exact h
  · simp [List.mem_append]

lemma mem_foldl_setInsert [DecidableEq α] (l : List α) (s : List α) (x : α) :
    x ∈ l.foldl setInsert s ↔ x ∈ s ∨ x ∈ l := by
  induction l generalizing s with
  | nil => simp
  | cons a t ih =>
      rw [List.foldl_cons, ih, mem_setInsert]
      simp [List.mem_cons, or_assoc]

lemma mem_setUnion [DecidableEq α] (s t : List α) (x : α) :
    x ∈ setUnion s t ↔ x ∈ s ∨ x ∈ t :=
  mem_foldl_setInsert t s x

lemma mem_setOfList [DecidableEq α] (l : List α) (x : α) :
    x ∈ setOfList l ↔ x ∈ l := by
  rw [setOfList, mem_setUnion]
  simp

lemma find?_sub_type_of_nodup [DecidableEq α] {L : List (TraitImpl α)}
    (hnd : (L.map (·.sub_type)).Nodup) {ti : TraitImpl α} (hm : ti ∈ L) :
    L.find? (fun t => t.sub_type == ti.sub_type) = some ti := by
  induction L with
  | nil => simp at hm
  | cons e t ih =>
      rw [List.map_cons, List.nodup_cons] at hnd
      rcases List.mem_cons.1 hm with rfl | hmt
      · exact List.find?_cons_of_pos _ (by simp)
      · have hne : e.sub_type ≠ ti.sub_type := fun h =>
          hnd.1 (h ▸ List.mem_map.2 ⟨ti, hmt, rfl⟩)
        rw [List.find?_cons_of_neg _ (by simpa using hne)]
        exact ih hnd.2 hmt

lemma mem_foldl_andStep_of_mem_acc [DecidableEq α] (inter : α → α → α)
    (L R : List (TraitImpl α)) (bases : List α)
    (acc : List (TraitImpl α)) {x : TraitImpl α} (hx : x ∈ acc) :
    x ∈ bases.foldl (andStep inter L R) acc := by
  induction bases generalizing acc with
  | nil => exact hx
  | cons b bs ih =>
      rw [List.foldl_cons]
      refine ih _ ?_
      unfold andStep
      rcases hfL : L.find? (fun ti => ti.sub_type == b) with _ | lti
      · rw [hfL]
        exact hx
      · rcases hfR : R.find? (fun ti => ti.sub_type == b) with _ | rti
        · rw [hfL, hfR]
          exact hx
        · rw [hfL, hfR]
          exact mem_setInsert.2 (Or.inl hx)

lemma mem_foldl_andStep_imp [DecidableEq α] (inter : α → α → α)
    (L R : List (TraitImpl α)) (bases : List α) (acc : List (TraitImpl α))
    (x : TraitImpl α) (h : x ∈ bases.foldl (andStep inter L R) acc) :
    x ∈ acc ∨ ∃ lti ∈ L, ∃ rti ∈ R, lti.sub_type = rti.sub_type ∧
      x = ⟨lti.sub_type, inter lti.sup_trait rti.sup_trait⟩ := by
  induction bases generalizing acc with
  | nil => exact Or.inl h
  | cons b bs ih =>
      rw [List.foldl_cons] at h
      rcases ih _ h with hacc | hex
      · unfold andStep at hacc
        rcases hfL : L.find? (fun ti => ti.sub_type == b) with _ | lti <;>
          rw [hfL] at hacc
        · exact Or.inl hacc
        · rcases hfR : R.find? (fun ti => ti.sub_type == b) with _ | rti <;>
            rw [hfR] at hacc
          · exact Or.inl hacc
          · rcases mem_setInsert.1 hacc with hacc | rfl
            · exact Or.inl hacc
            · refine Or.inr ⟨lti, List.mem_of_find?_eq_some hfL, rti,
                List.mem_of_find?_eq_some hfR, ?_, rfl⟩
              have h1 : lti.sub_type = b := by
                simpa using List.find?_some hfL
              have h2 : rti.sub_type = b := by
                simpa using List.find?_some hfR
              rw [h1, h2]
      · exact Or.inr hex

lemma mem_foldl_andStep_of [DecidableEq α] (inter : α → α → α)
    {L R : List (TraitImpl α)} (hndL : (L.map (·.sub_type)).Nodup)
    (hndR : (R.map (·.sub_type)).Nodup) {lti rti : TraitImpl α}
    (hl : lti ∈ L) (hr : rti ∈ R) (hsub : lti.sub_type = rti.sub_type)
    (bases : List α) (acc : List (TraitImpl α))
    (hb : lti.sub_type ∈ bases) :
    (⟨lti.sub_type, inter lti.sup_trait rti.sup_trait⟩ : TraitImpl α) ∈
      bases.foldl (andStep inter L R) acc := by
  induction bases generalizing acc with
  | nil => simp at hb
  | cons b bs ih =>
      rw [List.foldl_cons]
      rcases List.mem_cons.1 hb with hb | hb
      · refine mem_foldl_andStep_of_mem_acc inter L R bs _ ?_
        have hfr : R.find? (fun t => t.sub_type == lti.sub_type) = some rti := by
          rw [hsub]
          exact find?_sub_type_of_nodup hndR hr
        unfold andStep
        rw [← hb, find?_sub_type_of_nodup hndL hl, hfr]
        exact mem_setInsert.2 (Or.inr rfl)
      · exact ih _ hb

lemma collectArms_ok (ops : MatchOps τ) (lams : List (MLambda τ))
    (h : ∀ l ∈ lams, l.nDefaults = 0 ∧ l.nNonDefaults = 1) (pat : τ) :
    collectArms ops lams pat =
      .ok ((lams.map (·.paramTy)).foldl ops.union pat,
        lams.map (·.paramTy)) := by
  induction lams generalizing pat with
  | nil => rfl
  | cons l rest ih =>
      obtain ⟨hd, hn⟩ := h l (List.mem_cons_self _ _)
      have hrest := fun l hl => h l (List.mem_cons_of_mem _ hl)
      rw [collectArms, if_neg (by simp [hd]), if_neg (by simp [hd, hn]),
        ih hrest]
      simp

lemma collectArms_err (ops : MatchOps τ) (lams : List (MLambda τ))
    (h : ∃ l ∈ lams, l.nDefaults ≠ 0 ∨ l.nNonDefaults + l.nDefaults ≠ 1)
    (pat : τ) :
    ∃ e, collectArms ops lams pat = .error e ∧
      (e = .defaultParam ∨ ∃ n, e = MatchError.paramCount 1 n) := by
  induction lams generalizing pat with
  | nil => simp at h
  | cons l rest ih =>
      by_cases hd : l.nDefaults ≠ 0
      · exact ⟨.defaultParam, by rw [collectArms, if_pos hd], Or.inl rfl⟩
      · by_cases hn : l.nNonDefaults + l.nDefaults ≠ 1
        · refine ⟨.paramCount 1 (l.nNonDefaults + l.nDefaults), ?_,
            Or.inr ⟨_, rfl⟩⟩
          rw [collectArms, if_neg hd, if_pos hn]
        · push_neg at hd hn
          obtain ⟨l', hl', hbad⟩ := h
          rcases List.mem_cons.1 hl' with rfl | hl'
          · rcases hbad with hb | hb
            · exact absurd hd hb
            · exact absurd hn hb
          · obtain ⟨e, he, hshape⟩ := ih ⟨l', hl', hbad⟩
              (ops.union pat l.paramTy)
          -- propagate the error of the tail through the head's checks
            refine ⟨e, ?_, hshape⟩
            rw [collectArms, if_neg (by simp [hd]), if_neg (by simp [hn]),
              he]

/-- Any binding returned by `rec_get_var_info` passed the visibility
check at the node where it was found. -/
lemma rec_ok_visCompatible (isLocal : Bool) :
    ∀ (n : Nat) (c : Ctx), sizeOf c ≤ n →
      ∀ vi, rec_get_var_info isLocal c = .ok vi →
        vi.visCompatible = true := by
  intro n
  induction n with
  | zero =>
      intro c hc
      obtain ⟨cur, fut, del, methods, outer⟩ := c
      simp at hc
  | succ n ih =>
      intro c hc vi hok
      obtain ⟨cur, fut, del, methods, outer⟩ := c
      have hsz : 1 + sizeOf cur + sizeOf fut + sizeOf del +
          sizeOf methods + sizeOf outer ≤ n + 1 := by
        simpa using hc
      have hsizem : sizeOf methods ≤ n := by omega
      have hlist : ∀ ms : List Ctx, sizeOf ms ≤ n → ∀ v,
          recVarInfoList isLocal ms = .ok v →
            v.visCompatible = true := by
        intro ms
        induction ms with
        | nil =>
            intro _ v h
            simp [recVarInfoList] at h
        | cons d ds ihl =>
            intro hms v h
            have hszd : 1 + sizeOf d + sizeOf ds ≤ sizeOf (d :: ds) := by
              simp
            rw [recVarInfoList] at h
            rcases hr : rec_get_var_info isLocal d with v' | e | _
            · simp only [hr, Triple.ok.injEq] at h
              subst h
              exact ih d (by omega) _ hr
            · simp [hr] at h
            · simp only [hr] at h
              exact ihl (by omega) v h
      have hrest : ∀ v, rec_search_rest isLocal methods outer = .ok v →
          v.visCompatible = true := by
        intro v h
        rw [rec_search_rest.eq_def] at h
        rcases hr : recVarInfoList isLocal methods with v' | e | _
        · simp only [hr, triComb, Triple.ok.injEq] at h
          subst h
          exact hlist methods hsizem _ hr
        · simp [hr, triComb] at h
        · simp only [hr, triComb] at h
          cases isLocal with
          | false => simp at h
          | true =>
              cases outer with
              | none => simp at h
              | some parent =>
                  have hszo : sizeOf (some parent : Option Ctx) =
                      1 + sizeOf parent := by
                    simp
                  refine ih parent (by omega) v ?_
                  simpa using h
      rw [rec_get_var_info] at hok
      rcases hg : getCurrentScopeVar (.mk cur fut del methods outer) with
        _ | vi0 <;> rw [hg] at hok
      · by_cases hfut : fut = true
        · simp [hfut] at hok
        · by_cases hdel : del = true
          · simp [hfut, hdel] at hok
          · simp only [hfut, hdel, Bool.false_eq_true, if_false] at hok
            exact hrest vi hok
      · by_cases hvis : vi0.visCompatible = true
        · by_cases hkind : vi0.kindMatches = true
          · simp only [hvis, hkind, if_true, Triple.ok.injEq] at hok
            subst hok
            exact hvis
          · simp only [hvis, hkind, Bool.false_eq_true, if_true,
              if_false] at hok
            exact hrest vi hok
        · cases isLocal with
          | true =>
              simp only [hvis, Bool.false_eq_true, if_false, if_true]
                at hok
              exact hrest vi hok
          | false => simp [hvis] at hok

lemma posLoop_passed_mem (subOk : τ → τ → Bool)
    (params : List (Option String × τ)) (args : List τ)
    (passed : List String) (n : String) :
    n ∈ (posLoop subOk params args passed).1 ↔
      n ∈ passed ∨ some n ∈ (params.take args.length).map (·.1) := by
  induction params generalizing args passed with
  | nil => cases args <;> simp [posLoop]
  | cons pt pts ih =>
      cases args with
      | nil => simp [posLoop]
      | cons a rest =>
          simp only [posLoop, ih, List.length_cons, List.take_succ_cons,
            List.map_cons, List.mem_cons]
          rcases hpt : pt.1 with _ | m
          · simp [substPosArg, hpt]
          · by_cases hp : m ∈ passed
            · simp only [substPosArg, hpt, if_pos hp]
              constructor
              · rintro (h | h)
                · exact Or.inl h
                · exact Or.inr (Or.inr h)
              · rintro (h | h | h)
                · exact Or.inl h
                · exact Or.inl (Option.some.inj h ▸ hp)
                · exact Or.inr h
            · simp only [substPosArg, hpt, if_neg hp]
              constructor
              · rintro (h | h)
                · rcases List.mem_cons.1 h with rfl | h
                  · exact Or.inr (Or.inl rfl)
                  · exact Or.inl h
                · exact Or.inr (Or.inr h)
              · rintro (h | h | h)
                · exact Or.inl (List.mem_cons_of_mem _ h)
                · exact Or.inl (Option.some.inj h ▸ List.mem_cons_self _ _)
                · exact Or.inr h

lemma kwLoop_passed_mem (subOk : τ → τ → Bool) (subr : SubrSig τ)
    (kws : List (String × τ)) (passed : List String) (n : String) :
    n ∈ (kwLoop subOk subr kws passed).1 ↔
      n ∈ passed ∨ (n ∈ kws.map (·.1) ∧
        some n ∈ (subr.nonDefaultParams ++ subr.defaultsAsParams).map
          (·.1)) := by
  induction kws generalizing passed with
  | nil => simp [kwLoop]
  | cons kw rest ih =>
      simp only [kwLoop, ih, List.map_cons, List.mem_cons]
      by_cases hn : n = kw.1
      · subst hn
        by_cases hp : kw.1 ∈ passed
        · simp only [substKwArg, if_pos hp]
          tauto
        · rcases hf : (subr.nonDefaultParams ++ subr.defaultsAsParams).find?
              (fun pt => pt.1 == some kw.1) with _ | pt
          · have hno : ¬ some kw.1 ∈
                (subr.nonDefaultParams ++ subr.defaultsAsParams).map (·.1) := by
              rw [List.mem_map]
              rintro ⟨pt, hpt, hname⟩
              have := List.find?_eq_none.1 hf pt hpt
              simp [hname] at this
            simp only [substKwArg, if_neg hp, hf]
            tauto
          · have hyes : some kw.1 ∈
                (subr.nonDefaultParams ++ subr.defaultsAsParams).map (·.1) :=
              List.mem_map.2 ⟨pt, List.mem_of_find?_eq_some hf,
                by simpa using List.find?_some hf⟩
            simp only [substKwArg, if_neg hp, hf, List.mem_cons]
            tauto
      · have hiff : ∀ r : List String × List (CallError τ),
            r = substKwArg subOk subr kw passed →
            (n ∈ r.1 ↔ n ∈ passed) := by
          rintro r rfl
          unfold substKwArg
          split
          · exact Iff.rfl
          · split
            · simp [List.mem_cons, hn]
            · exact Iff.rfl
        rw [hiff _ rfl]
        tauto

/-- C6: `get_trait_impls` on an intersection returns exactly the
implementers whose implementing type occurs in both sides' implementer
sets, pairing it with the type-intersection of the two implemented
traits (the "exactly" direction in both senses, the backward one under
the assumption that each side registers each implementing type once);
on a union it returns the set-union of both sides without merging
overlapping implementers; on the concrete scenario `Add and Sub` over
`{Int: Add(Int), Int: Sub(Int), Bool: Add(Bool)}` it yields exactly
`{Int: Add(Int) and Sub(Int)}`, and `Add or Sub` keeps the two `Int`
entries unmerged. -/
theorem get_trait_impls_and_or :
    (∀ (α : Type) [DecidableEq α] (inter : α → α → α)
        (table : String → List (TraitImpl α)) (l r : TraitExpr)
        (x : TraitImpl α),
        x ∈ get_trait_impls inter table (.and l r) →
        ∃ lti ∈ get_trait_impls inter table l,
          ∃ rti ∈ get_trait_impls inter table r,
            lti.sub_type = rti.sub_type ∧
              x = ⟨lti.sub_type, inter lti.sup_trait rti.sup_trait⟩) ∧
    (∀ (α : Type) [DecidableEq α] (inter : α → α → α)
        (table : String → List (TraitImpl α)) (l r : TraitExpr),
        ((get_trait_impls inter table l).map (·.sub_type)).Nodup →
        ((get_trait_impls inter table r).map (·.sub_type)).Nodup →
        ∀ lti ∈ get_trait_impls inter table l,
          ∀ rti ∈ get_trait_impls inter table r,
            lti.sub_type = rti.sub_type →
            (⟨lti.sub_type, inter lti.sup_trait rti.sup_trait⟩ :
                TraitImpl α) ∈
              get_trait_impls inter table (.and l r)) ∧
    (∀ (α : Type) [DecidableEq α] (inter : α → α → α)
        (table : String → List (TraitImpl α)) (l r : TraitExpr)
        (x : TraitImpl α),
        x ∈ get_trait_impls inter table (.or l r) ↔
          x ∈ get_trait_impls inter table l ∨
            x ∈ get_trait_impls inter table r) ∧
    get_trait_impls TTy.tand scenarioTable
        (.and (.simple "Add") (.simple "Sub")) =
      [⟨.tint, .tand .taddInt .tsubInt⟩] ∧
    get_trait_impls TTy.tand scenarioTable
        (.or (.simple "Add") (.simple "Sub")) =
      [⟨.tint, .taddInt⟩, ⟨.tbool, .taddBool⟩, ⟨.tint, .tsubInt⟩] := by
  refine ⟨?_, ?_, ?_, by decide, by decide⟩
  · intro α inst inter table l r x hx
    simp only [get_trait_impls] at hx
    rcases mem_foldl_andStep_imp inter _ _ _ _ x hx with h | hex
    · exact absurd h (List.not_mem_nil x)
    · exact hex
  · intro α inst inter table l r hndL hndR lti hl rti hr hsub
    simp only [get_trait_impls]
    refine mem_foldl_andStep_of inter hndL hndR hl hr hsub _ [] ?_
    rw [List.mem_filter]
    refine ⟨(mem_setOfList _ _).2 (List.mem_map.2 ⟨lti, hl, rfl⟩), ?_⟩
    simp only [decide_eq_true_eq]
    exact (mem_setOfList _ _).2 (List.mem_map.2 ⟨rti, hr, hsub.symm⟩)
  · intro α inst inter table l r x
    simp only [get_trait_impls]
    exact mem_setUnion _ _ x

/-- C6 witness: the intersection membership at the concrete scenario —
`Int` implements both sides, so `Int: Add(Int) and Sub(Int)` is in the
result for `Add and Sub`. -/
theorem get_trait_impls_and_or_witness :
    (⟨TTy.tint, TTy.tand .taddInt .tsubInt⟩ : TraitImpl TTy) ∈
      get_trait_impls TTy.tand scenarioTable
        (.and (.simple "Add") (.simple "Sub")) :=
  get_trait_impls_and_or.2.1 TTy TTy.tand scenarioTable (.simple "Add")
    (.simple "Sub") (by decide) (by decide) ⟨.tint, .taddInt⟩ (by decide)
    ⟨.tint, .tsubInt⟩ (by decide) rfl

/-- C3 counterexample: over the candidates
`{Float: Float -> Bool, Int: Int -> Bool}` (same shape, both
visibility-compatible) and an object of type `Int`, the fallback does
not return the candidate with the most specific (minimal) parameter
type — `Int -> Bool` — but the one with the minimal overall method
type, `Float -> Bool`, whose parameter type `Float` is strictly more
general than `Int`. -/
theorem get_attr_type_min_param_cex :
    get_attr_type csup cview (CTy.base .bint)
        [⟨.base .bfloat, .fn .bfloat .bbool, true⟩,
         ⟨.base .bint, .fn .bint .bbool, true⟩] =
      .ok ⟨.base .bfloat, .fn .bfloat .bbool, true⟩ ∧
    same_shape cview [CTy.fn .bfloat .bbool, .fn .bint .bbool] = true ∧
    b3sub .bint .bfloat = true ∧ (B3.bint ≠ B3.bfloat) ∧
    (CTy.fn .bfloat .bbool ≠ CTy.fn .bint .bbool) := by
  decide

/-- C3 (amended): with a non-empty candidate set, (1) if exactly one
candidate's definition type is a supertype of the object's type and
that candidate is visibility-compatible, it is returned; (2) otherwise,
if all candidates share an identical signature shape, the candidate
whose *overall method type* is minimal per the subtype order — that is,
the one with the most *general* parameter types, not the most specific
— is returned when visibility-compatible; (3) when there is no unique
supertype match and the shapes differ, an ambiguous-method error
listing all candidates' definition types is raised. -/
theorem get_attr_type_branches {α : Type} [DecidableEq α]
    (sup : α → α → Bool) (v : TyView α) (objT : α)
    (cands : List (MethodPair α)) (hne : cands ≠ []) :
    (∀ mp, cands.filter (fun mp => sup mp.definition_type objT) = [mp] →
        mp.visCompatible = true →
        get_attr_type sup v objT cands = .ok mp) ∧
    (∀ m mp,
        (cands.filter (fun mp => sup mp.definition_type objT)).length ≠ 1 →
        same_shape v (cands.map (·.method_type)) = true →
        min_type sup (cands.map (·.method_type)) = some m →
        cands.find? (fun mp => mp.method_type == m) = some mp →
        mp.visCompatible = true →
        get_attr_type sup v objT cands = .ok mp) ∧
    ((cands.filter (fun mp => sup mp.definition_type objT)).length ≠ 1 →
        same_shape v (cands.map (·.method_type)) = false →
        get_attr_type sup v objT cands =
          .err (.ambiguousMethod (cands.map (·.definition_type)))) := by
  have hne' : cands.isEmpty = false := by
    cases cands
    · exact absurd rfl hne
    · rfl
  refine ⟨?_, ?_, ?_⟩
  · intro mp h1 h2
    simp [get_attr_type, hne', h1, h2]
  · intro m mp h1 hshape hmin hfind hvis
    rcases hm : cands.filter (fun mp => sup mp.definition_type objT) with
      _ | ⟨x, _ | ⟨y, t⟩⟩
    · simp [get_attr_type, hne', hm, hshape, hmin, hfind, hvis]
    · exact absurd (hm ▸ rfl) h1
    · simp [get_attr_type, hne', hm, hshape, hmin, hfind, hvis]
  · intro h1 hshape
    rcases hm : cands.filter (fun mp => sup mp.definition_type objT) with
      _ | ⟨x, _ | ⟨y, t⟩⟩
    · simp [get_attr_type, hne', hm, hshape]
    · exact absurd (hm ▸ rfl) h1
    · simp [get_attr_type, hne', hm, hshape]

/-- C3 witness: the amended branch (2) applied to the concrete
candidates of the counterexample. -/
theorem get_attr_type_branches_witness :
    get_attr_type csup cview (CTy.base .bint)
        [⟨.base .bfloat, .fn .bfloat .bbool, true⟩,
         ⟨.base .bint, .fn .bint .bbool, true⟩] =
      .ok ⟨.base .bfloat, .fn .bfloat .bbool, true⟩ :=
  (get_attr_type_branches csup cview (CTy.base .bint)
      [⟨.base .bfloat, .fn .bfloat .bbool, true⟩,
       ⟨.base .bint, .fn .bint .bbool, true⟩] (by decide)).2.1
    (CTy.fn .bfloat .bbool) ⟨.base .bfloat, .fn .bfloat .bbool, true⟩
    (by decide) (by decide) (by decide) (by decide) (by decide)

/-- C5: for a call to the builtin `match`/`match!` with no keyword
arguments and argument list `scrutinee :: arms`: (1) the first
non-lambda arm yields a type-mismatch error; (2) an arm with default
parameters or a parameter count other than 1 yields the corresponding
error; (3) with well-formed arms, the pattern type is the union —
starting from `Never` — of the arms' instantiated parameter types, and
a scrutinee whose type does not sub-unify into it yields a match error
naming that pattern type and all arm types; (4) on success the result
is a subroutine over the scrutinee and arm types whose return type is
the union of all arms' return types. -/
theorem match_call_arms_typing {τ : Type} (ops : MatchOps τ)
    (isFunc : Bool) (scr : MArg τ) (armArgs : List (MArg τ)) :
    (∀ a, armArgs.find? (fun a => !a.isLambda) = some a →
        get_match_call_t ops isFunc (scr :: armArgs) [] =
          .error (.typeMismatch a.refT)) ∧
    (armArgs.find? (fun a => !a.isLambda) = none →
      (∃ l ∈ armArgs.filterMap MArg.lam?,
        l.nDefaults ≠ 0 ∨ l.nNonDefaults + l.nDefaults ≠ 1) →
      ∃ e, get_match_call_t ops isFunc (scr :: armArgs) [] = .error e ∧
        (e = .defaultParam ∨ ∃ n, e = MatchError.paramCount 1 n)) ∧
    (armArgs.find? (fun a => !a.isLambda) = none →
      (∀ l ∈ armArgs.filterMap MArg.lam?,
        l.nDefaults = 0 ∧ l.nNonDefaults = 1) →
      ops.subOk scr.refT
          (((armArgs.filterMap MArg.lam?).map (·.paramTy)).foldl ops.union
            ops.never) = false →
      get_match_call_t ops isFunc (scr :: armArgs) [] =
        .error (.matchFailed scr.refT
          (((armArgs.filterMap MArg.lam?).map (·.paramTy)).foldl ops.union
            ops.never)
          ((armArgs.filterMap MArg.lam?).map (·.paramTy)))) ∧
    (armArgs.find? (fun a => !a.isLambda) = none →
      (∀ l ∈ armArgs.filterMap MArg.lam?,
        l.nDefaults = 0 ∧ l.nNonDefaults = 1) →
      ops.subOk scr.refT
          (((armArgs.filterMap MArg.lam?).map (·.paramTy)).foldl ops.union
            ops.never) = true →
      ∀ b0 rest, armArgs.map MArg.refT = b0 :: rest →
      ∀ r0, ops.returnT b0 = some r0 →
      get_match_call_t ops isFunc (scr :: armArgs) [] =
        .ok ⟨isFunc, scr.refT :: armArgs.map MArg.refT,
          rest.foldl
            (fun acc b => ops.union acc ((ops.returnT b).getD ops.never))
            r0⟩) := by
  have hdrop : (scr :: armArgs).drop 1 = armArgs := rfl
  refine ⟨?_, ?_, ?_, ?_⟩
  · intro a hfind
    simp only [get_match_call_t, hdrop, hfind]
  · intro hfind hbad
    obtain ⟨e, he, hshape⟩ :=
      collectArms_err ops (armArgs.filterMap MArg.lam?) hbad ops.never
    refine ⟨e, ?_, hshape⟩
    simp only [get_match_call_t, hdrop, hfind, he]
  · intro hfind hgood hsub
    rw [get_match_call_t]
    simp only [hdrop, hfind,
      collectArms_ok ops (armArgs.filterMap MArg.lam?) hgood ops.never,
      hsub]
    simp
  · intro hfind hgood hsub b0 rest hmap r0 hret
    rw [get_match_call_t]
    simp only [hdrop, hfind,
      collectArms_ok ops (armArgs.filterMap MArg.lam?) hgood ops.never,
      hsub, hmap, hret]
    simp

/-- C5 witness: `match` on an `Int` scrutinee with two well-formed arms
`(x: Int) -> Str` and `(x: Str) -> Str` types as a function over the
scrutinee and arm types whose return type is the union of the arms'
return types. -/
theorem match_call_arms_typing_witness :
    get_match_call_t mtyOps true
        [.other .tintM, .lam ⟨1, 0, .tintM, .tfn .tintM .tstrM⟩,
         .lam ⟨1, 0, .tstrM, .tfn .tstrM .tstrM⟩] [] =
      .ok ⟨true, [.tintM, .tfn .tintM .tstrM, .tfn .tstrM .tstrM],
        .tor .tstrM .tstrM⟩ :=
  (match_call_arms_typing mtyOps true (.other .tintM)
      [.lam ⟨1, 0, .tintM, .tfn .tintM .tstrM⟩,
       .lam ⟨1, 0, .tstrM, .tfn .tstrM .tstrM⟩]).2.2.2
    (by decide) (by decide) (by decide)
    (MTy.tfn .tintM .tstrM) [MTy.tfn .tstrM .tstrM] (by decide)
    MTy.tstrM (by decide)

/-- C4: `rec_get_var_info` never returns a binding that failed the
visibility check (first conjunct, by induction over the scope tree);
when the current scope holds a visibility-incompatible binding, the
search continues past it exactly when the access kind is
local-unqualified (third conjunct), and otherwise the visibility error
is returned at once, terminating the search (second conjunct). -/
theorem rec_get_var_info_visibility (isLocal : Bool) (c : Ctx) :
    (∀ vi, rec_get_var_info isLocal c = .ok vi →
      vi.visCompatible = true) ∧
    (∀ vi, getCurrentScopeVar c = some vi → vi.visCompatible = false →
      isLocal = false →
      rec_get_var_info isLocal c = .err (.visibility vi)) ∧
    (∀ vi, getCurrentScopeVar c = some vi → vi.visCompatible = false →
      isLocal = true →
      rec_get_var_info isLocal c =
        rec_search_rest isLocal c.methodsOf c.outerOf) := by
  refine ⟨fun vi h =>
    rec_ok_visCompatible isLocal (sizeOf c) c le_rfl vi h, ?_, ?_⟩
  · intro vi hg hvis hloc
    obtain ⟨cur, fut, del, methods, outer⟩ := c
    subst hloc
    rw [rec_get_var_info]
    simp [hg, hvis]
  · intro vi hg hvis hloc
    obtain ⟨cur, fut, del, methods, outer⟩ := c
    subst hloc
    rw [rec_get_var_info]
    simp [hg, hvis, Ctx.methodsOf, Ctx.outerOf]

/-- C4 witness: a local-unqualified search that skips a
visibility-incompatible binding in the current scope and returns the
compatible binding of the enclosing scope — which indeed passes the
visibility check. -/
theorem rec_get_var_info_visibility_witness :
    rec_get_var_info true
        (.mk (some ⟨0, false, true⟩) false false []
          (some (.mk (some ⟨1, true, true⟩) false false [] none))) =
      .ok ⟨1, true, true⟩ ∧
    (⟨1, true, true⟩ : VInfo).visCompatible = true := by
  have hrun : rec_get_var_info true
      (.mk (some ⟨0, false, true⟩) false false []
        (some (.mk (some ⟨1, true, true⟩) false false [] none))) =
      .ok ⟨1, true, true⟩ := by
    simp [rec_get_var_info, rec_search_rest.eq_def, recVarInfoList,
      getCurrentScopeVar, getCurrentScopeVarList, triComb]
  exact ⟨hrun, (rec_get_var_info_visibility true _).1 ⟨1, true, true⟩ hrun⟩

/-- C7: calling a subroutine signature with `k` non-default parameters
(all named, names distinct) and no variadic parameter with fewer than
`k` positional/keyword arguments produces a `MissingArgs` error whose
list is exactly the names of the non-default parameters no argument
filled: those past the positional prefix and not named by any keyword
argument; and that list is non-empty. -/
theorem substitute_call_missing_args {τ : Type} [DecidableEq τ]
    (subOk : τ → τ → Bool) (objT : τ) (subr : SubrSig τ)
    (posArgs : List τ) (kwArgs : List (String × τ))
    (_hvar : subr.varParams = none)
    (hnm : ∀ pt ∈ subr.nonDefaultParams, pt.1.isSome)
    (hnodup : (subr.nonDefaultParams.map (fun pt => pt.1.getD "_")).Nodup)
    (hlt : posArgs.length + kwArgs.length <
      subr.nonDefaultParams.length) :
    substitute_call_subr subOk false objT subr posArgs kwArgs =
      .error [.missingArgs
        (((subr.nonDefaultParams.map (fun pt => pt.1.getD "_")).drop
            posArgs.length).filter
          (fun n => ¬ n ∈ kwArgs.map (·.1)))] ∧
    ((subr.nonDefaultParams.map (fun pt => pt.1.getD "_")).drop
        posArgs.length).filter (fun n => ¬ n ∈ kwArgs.map (·.1)) ≠ [] := by
  have hmlt : posArgs.length < subr.nonDefaultParams.length :=
    lt_of_le_of_lt (Nat.le_add_right _ _) hlt
  have hknames : (subr.nonDefaultParams.map
      (fun pt => pt.1.getD "_")).length = subr.nonDefaultParams.length :=
    List.length_map _ _
  -- the claimed missing list is non-empty
  have hdropnodup : ((subr.nonDefaultParams.map
      (fun pt => pt.1.getD "_")).drop posArgs.length).Nodup :=
    hnodup.sublist (List.drop_sublist _ _)
  have hlenpos : 0 < (((subr.nonDefaultParams.map
      (fun pt => pt.1.getD "_")).drop posArgs.length).filter
        (fun n => ¬ n ∈ kwArgs.map (·.1))).length := by
    have h1 : (((subr.nonDefaultParams.map
        (fun pt => pt.1.getD "_")).drop posArgs.length).filter
          (fun n => n ∈ kwArgs.map (·.1))).length ≤
        (kwArgs.map (·.1)).length := by
      refine List.Subperm.length_le (List.subperm_of_subset
        (hdropnodup.filter _) ?_)
      intro x hx
      simpa using (List.mem_filter.1 hx).2
    have h2 := List.length_eq_length_filter_add
      (l := (subr.nonDefaultParams.map
        (fun pt => pt.1.getD "_")).drop posArgs.length)
      (fun n => decide (n ∈ kwArgs.map (·.1)))
    have h3 : ((subr.nonDefaultParams.map
        (fun pt => pt.1.getD "_")).drop posArgs.length).length =
        subr.nonDefaultParams.length - posArgs.length := by
      rw [List.length_drop, hknames]
    have h4 : (((subr.nonDefaultParams.map
        (fun pt => pt.1.getD "_")).drop posArgs.length).filter
          (fun n => ¬ n ∈ kwArgs.map (·.1))).length =
        (((subr.nonDefaultParams.map
          (fun pt => pt.1.getD "_")).drop posArgs.length).filter
            (fun n => ! decide (n ∈ kwArgs.map (fun kw => kw.1)))).length := by
      congr 1
      refine List.filter_congr ?_
      intro x _
      simp [decide_not]
    have h5 : (kwArgs.map (·.1)).length = kwArgs.length :=
      List.length_map _ _
    rw [h4]
    omega
  have hne2 : ((subr.nonDefaultParams.map
      (fun pt => pt.1.getD "_")).drop posArgs.length).filter
        (fun n => ¬ n ∈ kwArgs.map (·.1)) ≠ [] := by
    intro h
    rw [h] at hlenpos
    simp at hlenpos
  refine ⟨?_, hne2⟩
  -- membership in the passed set after both loops
  have hpassed2 : ∀ n, n ∈ (kwLoop subOk subr kwArgs
      (posLoop subOk (subr.nonDefaultParams ++ subr.defaultsAsParams)
        posArgs []).1).1 ↔
      (some n ∈ (subr.nonDefaultParams.take posArgs.length).map (·.1) ∨
        (n ∈ kwArgs.map (·.1) ∧
          some n ∈ (subr.nonDefaultParams ++
            subr.defaultsAsParams).map (·.1))) := by
    intro n
    rw [kwLoop_passed_mem, posLoop_passed_mem,
      List.take_append_of_le_length (le_of_lt hmlt)]
    simp
  -- the computed missing list is the claimed one
  have hmiss : (subr.nonDefaultParams.map
      (fun pt => pt.1.getD "_")).filter
        (fun n => ¬ n ∈ (kwLoop subOk subr kwArgs
          (posLoop subOk (subr.nonDefaultParams ++ subr.defaultsAsParams)
            posArgs []).1).1) =
      ((subr.nonDefaultParams.map (fun pt => pt.1.getD "_")).drop
        posArgs.length).filter (fun n => ¬ n ∈ kwArgs.map (·.1)) := by
    have hdisj : List.Disjoint
        ((subr.nonDefaultParams.map (fun pt => pt.1.getD "_")).take
          posArgs.length)
        ((subr.nonDefaultParams.map (fun pt => pt.1.getD "_")).drop
          posArgs.length) := by
      refine List.disjoint_of_nodup_append ?_
      rw [List.take_append_drop]
      exact hnodup
    have htakemem : ∀ x, x ∈ (subr.nonDefaultParams.map
        (fun pt => pt.1.getD "_")).take posArgs.length ↔
        some x ∈ (subr.nonDefaultParams.take posArgs.length).map (·.1) := by
      intro x
      rw [← List.map_take]
      constructor
      · rintro hx
        obtain ⟨pt, hpt, rfl⟩ := List.mem_map.1 hx
        obtain ⟨y, hy⟩ := Option.isSome_iff_exists.1
          (hnm pt (List.mem_of_mem_take hpt))
        rw [List.mem_map]
        exact ⟨pt, hpt, by rw [hy]; rfl⟩
      · rintro hx
        obtain ⟨pt, hpt, hy⟩ := List.mem_map.1 hx
        rw [List.mem_map]
        exact ⟨pt, hpt, by rw [hy]; rfl⟩
    conv_lhs => rw [← List.take_append_drop posArgs.length
      (subr.nonDefaultParams.map (fun pt => pt.1.getD "_"))]
    rw [List.filter_append]
    have htake : ((subr.nonDefaultParams.map
        (fun pt => pt.1.getD "_")).take posArgs.length).filter
          (fun n => ¬ n ∈ (kwLoop subOk subr kwArgs
            (posLoop subOk (subr.nonDefaultParams ++
              subr.defaultsAsParams) posArgs []).1).1) = [] := by
      rw [List.filter_eq_nil_iff]
      intro x hx
      have hxp := (hpassed2 x).2 (Or.inl ((htakemem x).1 hx))
      simp [hxp]
    rw [htake, List.nil_append]
    refine List.filter_congr ?_
    intro x hx
    have hiff : x ∈ (kwLoop subOk subr kwArgs
        (posLoop subOk (subr.nonDefaultParams ++ subr.defaultsAsParams)
          posArgs []).1).1 ↔ x ∈ kwArgs.map (·.1) := by
      rw [hpassed2]
      constructor
      · rintro (h | h)
        · exact absurd hx (hdisj ((htakemem x).2 h))
        · exact h.1
      · intro h
        refine Or.inr ⟨h, ?_⟩
        obtain ⟨pt, hpt, hy⟩ := List.mem_map.1 (List.mem_of_mem_drop hx)
        obtain ⟨y, hys⟩ := Option.isSome_iff_exists.1 (hnm pt hpt)
        have : pt.1 = some x := by rw [hys] at hy ⊢; simpa using hy
        rw [List.map_append]
        exact List.mem_append_left _
          (List.mem_map.2 ⟨pt, hpt, this⟩)
    exact decide_eq_decide.2 (not_congr hiff)
  -- evaluate the function on the small-argument branch
  have hc1 : ¬((subr.nonDefaultParams.length + subr.defaultParams.length <
      posArgs.length ∨
      subr.nonDefaultParams.length + subr.defaultParams.length <
        posArgs.length + kwArgs.length) ∧
      subr.varParams.isNone = true) := by
    rintro ⟨h, -⟩
    rcases h with h | h <;> omega
  have hge : ¬(posArgs.length ≥ subr.nonDefaultParams.length) := by
    omega
  rw [substitute_call_subr, if_neg hc1]
  simp only [Bool.false_eq_true, if_false, ge_iff_le]
  rw [if_neg (by simpa using hge), hmiss, if_pos hne2]

/-- C7 witness: `f(a: T, b: T, c: T)` called as `f(x, c := y)` is
missing exactly `b`. -/
theorem substitute_call_missing_args_witness :
    substitute_call_subr (fun _ _ => true) false (0 : Nat)
        ⟨[(some "a", 0), (some "b", 0), (some "c", 0)], none, []⟩
        [0] [("c", 0)] =
      .error [.missingArgs ["b"]] := by
  have h := (substitute_call_missing_args (fun _ _ => true) 0
    ⟨[(some "a", 0), (some "b", 0), (some "c", 0)], none, []⟩ [0]
    [("c", 0)] rfl (by decide) (by decide) (by decide)).1
  have hlist : (((⟨[(some "a", 0), (some "b", 0), (some "c", 0)], none,
      []⟩ : SubrSig Nat).nonDefaultParams.map
        (fun pt => pt.1.getD "_")).drop ([(0 : Nat)].length)).filter
      (fun n => ¬ n ∈ ([("c", (0 : Nat))].map (·.1))) = ["b"] := by
    decide
  rw [hlist] at h
  exact h

/-- C10: for every attribute identifier (and any visibility check),
attributive lookup on an object of type `Never` succeeds with the
distinguished illegal `VarInfo` — it neither fails with an error nor
falls through empty-handed, so an attribute access on a `Never`-typed
expression resolves without an attribute error at this step. -/
theorem never_attr_lookup (visOk : Bool → Bool) (ident : String) :
    get_attr_info_from_attributive visOk ident ATy.never =
        .ok AVarInfo.illegal ∧
    (∀ e, get_attr_info_from_attributive visOk ident ATy.never ≠ .err e) ∧
    get_attr_info_from_attributive visOk ident ATy.never ≠ .none :=
  ⟨rfl, fun _ h => Triple.noConfusion h, fun h => Triple.noConfusion h⟩

/-- C10 witness: the theorem at a concrete identifier and visibility
check. -/
theorem never_attr_lookup_witness :
    get_attr_info_from_attributive (fun b => b) "x" ATy.never =
      .ok AVarInfo.illegal :=
  (never_attr_lookup (fun b => b) "x").1

end Erg
